import Mathlib

/-!
Verification of the phonecodes conversion engine (`phonecodes.py`).

Strings are modelled as `List Char`; Python dictionaries (symbol tables,
reduction mappings) as ordered association lists `List (Str × Str)` with
first-match lookup, which agrees with Python dicts (whose keys are unique)
while preserving insertion order where it is semantically meaningful.
Python exceptions are modelled by `Option`/`Except` results.
-/

namespace Phonecodes

/-- A string, modelled as its list of characters. -/
abbrev Str := List Char

/-- An ordered symbol table / mapping, modelling a Python `dict[str, str]`. -/
abbrev Table := List (Str × Str)

/-- Python `d[k]` / `k in d`: first-match association-list lookup. -/
def lookup (d : Table) (k : Str) : Option Str :=
  (d.find? (fun kv => kv.1 == k)).map (·.2)

/-- Python slice `s[a:b]` for `0 ≤ a ≤ b`. -/
def substr (s : Str) (a b : Nat) : Str :=
  (s.drop a).take (b - a)

/-- Path cost per translated symbol (`symcost = 1` in `translate_string`). -/
def symcost : Nat := 1

/-- Path cost per untranslatable symbol (`oovcost = 10` in `translate_string`). -/
def oovcost : Nat := 10

/-- Python `max(len(k) for k in d.keys())`: `none` models the `ValueError`
raised by `max` when `d` is empty. -/
def maxsymOpt (d : Table) : Option Nat :=
  match d with
  | [] => none
  | _ :: _ => some ((d.map (fun kv => kv.1.length)).foldl max 0)

/-- One lattice entry of `translate_string`:
`(pathcost to s[0:n], n-m, translation of s[(n-m):n], hit?)`. -/
structure Node where
  cost : Nat
  back : Nat
  sym : Str
  hit : Bool
deriving Repr, DecidableEq, Inhabited

/-- The pessimistic initialization of lattice entry `n`:
`s[n-1]` treated as untranslatable
(`(oovcost + lattice[n-1][0], n-1, s[(n-1):n], False)`). -/
def initNode (s : Str) (lat : List Node) (n : Nat) : Node :=
  ⟨oovcost + (lat.getD (n - 1) default).cost, n - 1, substr s (n - 1) n, false⟩

/-- The candidate arrival record at `n` through a table hit of key length `m`,
when `s[(n-m):n]` is a key of `d`. -/
def hitCandidate (s : Str) (d : Table) (lat : List Node) (n m : Nat) : Option Node :=
  (lookup d (substr s (n - m) n)).map
    (fun v => ⟨symcost + (lat.getD (n - m) default).cost, n - m, v, true⟩)

/-- The update of the inner loop of `translate_string`: the candidate
replaces the current record exactly when its cost is strictly smaller
(`symcost + lattice[n-m][0] < lattice[n][0]`). -/
def chooseCheaper (cur cand : Node) : Node :=
  if cand.cost < cur.cost then cand else cur

/-- One iteration of the inner loop of `translate_string`: when
`s[(n-m):n]` is a key of `d`, consider replacing the current record. -/
def stepAt (s : Str) (d : Table) (lat : List Node) (n : Nat) (cur : Node) (m : Nat) :
    Node :=
  match hitCandidate s d lat n m with
  | some cand => chooseCheaper cur cand
  | none => cur

/-- The inner loop of `translate_string` filling lattice entry `n`:
start from the untranslatable-singleton record, and for each key length
`m = 1, 2, ..., min(n, maxsym)` replace the record by the table hit when its
cost is strictly smaller (`... < lattice[n][0]`). -/
def nodeAt (s : Str) (d : Table) (lat : List Node) (n maxsym : Nat) : Node :=
  (List.range' 1 (min n maxsym)).foldl (stepAt s d lat n) (initNode s lat n)

/-- The arrival candidates at position `n` in the order the source scans them:
the untranslatable-singleton record first, then the table hits for
`m = 1, 2, ..., min(n, maxsym)`. -/
def candidates (s : Str) (d : Table) (lat : List Node) (n maxsym : Nat) : List Node :=
  initNode s lat n :: (List.range' 1 (min n maxsym)).filterMap (hitCandidate s d lat n)

/-- The lattice of `translate_string` after processing positions `1..n`:
entry `0` is `(0, 0, "", True)` and entry `k` is filled by the inner loop. -/
def latticeUpTo (s : Str) (d : Table) (maxsym : Nat) : Nat → List Node
  | 0 => [⟨0, 0, [], true⟩]
  | n + 1 =>
    latticeUpTo s d maxsym n ++ [nodeAt s d (latticeUpTo s d maxsym n) (n + 1) maxsym]

/-- The back-trace of `translate_string`, producing the (already reversed)
symbol list and hit flags starting from position `n`.  The fuel argument makes
the recursion structural; `n` itself is always sufficient fuel because every
lattice entry points strictly backwards. -/
def backtrace (lat : List Node) : Nat → Nat → List Str × List Bool
  | _, 0 => ([], [])
  | 0, _ + 1 => ([], [])
  | fuel + 1, n + 1 =>
    let nd := lat.getD (n + 1) default
    let p := backtrace lat fuel nd.back
    (p.1 ++ [nd.sym], p.2 ++ [nd.hit])

/-- `translate_string(s, d)`: minimum-cost segmentation of `s` by keys of `d`,
with untranslatable single characters at penalty `oovcost`.  Returns `none`
exactly when the source raises (`max()` over the keys of an empty `d`). -/
def translate_string (s : Str) (d : Table) : Option (List Str × List Bool) :=
  match maxsymOpt d with
  | none => none
  | some maxsym =>
    some (backtrace (latticeUpTo s d maxsym s.length) s.length s.length)

example :
    translate_string ['a', 'b'] [(['a', 'b'], ['X'])] = some ([['X']], [true]) := by
  decide

example :
    translate_string ['a', 'b'] [(['a'], ['P']), (['c'], ['Q'])] =
      some ([['P'], ['b']], [true, false]) := by
  decide

example : translate_string [] [(['a'], ['P'])] = some ([], []) := by decide

example : translate_string ['a'] [] = none := by decide

example :
    translate_string ['a', 'b', 'b']
      [(['a'], ['A']), (['a', 'b'], ['A', 'B']), (['b'], ['B']), (['b', 'b'], ['B', 'B'])] =
      some ([['A', 'B'], ['B']], [true, true]) := by
  decide

/-- The vowel test of `attach_tones_to_vowels`:
`ol[v] in vowels or (len(ol[v]) > 1 and ol[v][0] in vowels)`.
`tones` and `vowels` are modelled as lists of strings (the `Iterable[str]`
branch of the source's declared type); `ol[v][0]` is the one-character string
`x.take 1`. -/
def vowelTest (vowels : List Str) (x : Str) : Bool :=
  decide (x ∈ vowels) || (decide (1 < x.length) && decide (x.take 1 ∈ vowels))

/-- The `while 0 <= v and v < len(ol)` loop of `attach_tones_to_vowels`,
with the mutable state `(ol, v, t)` made explicit.  The fuel argument makes
the recursion structural; `il.length + 1` fuel is sufficient whenever
`searchstep` is `1` or `-1` (the only values the source is called with), and
`none` models the source diverging. -/
def attachP (vowels : List Str) (catdir : Int) (ol : List Str) (v t : Int) :
    List Str × Int :=
  if vowelTest vowels (ol.getD v.toNat []) && decide (0 ≤ t) then
    let tn := t.toNat
    let merged :=
      if 0 ≤ catdir then ol.getD v.toNat [] ++ ol.getD tn []
      else ol.getD tn [] ++ ol.getD v.toNat []
    let ol2 := ol.set v.toNat merged
    ((ol2.take tn) ++ (ol2.drop (tn + 1)), (-1 : Int))
  else (ol, t)

def attachT2 (tones : List Str) (p1 : List Str) (vn : Nat) (v t2' : Int) : Int :=
  if decide (v < (p1.length : Int)) && decide ((p1.getD vn []) ∈ tones) then v
  else t2'

def attachBody (tones vowels : List Str) (searchstep catdir : Int)
    (go : List Str → Int → Int → Option (List Str)) (ol : List Str) (v t : Int) :
    Option (List Str) :=
  if 0 ≤ v ∧ v < (ol.length : Int) then
    go (attachP vowels catdir ol v t).1 (v + searchstep)
      (attachT2 tones (attachP vowels catdir ol v t).1 v.toNat v
        (attachP vowels catdir ol v t).2)
  else some ol

def attachLoop (tones vowels : List Str) (searchstep catdir : Int) :
    Nat → List Str → Int → Int → Option (List Str)
  | 0, ol, v, _ =>
    if 0 ≤ v ∧ v < (ol.length : Int) then none else some ol
  | fuel + 1, ol, v, t =>
    attachBody tones vowels searchstep catdir
      (attachLoop tones vowels searchstep catdir fuel) ol v t

/-- `attach_tones_to_vowels(il, tones, vowels, searchstep, catdir)`:
return a copy of `il` with each tone attached to the nearest vowel found in
the scan direction. -/
def attach_tones_to_vowels (il : List Str) (tones vowels : List Str)
    (searchstep catdir : Int) : Option (List Str) :=
  attachLoop tones vowels searchstep catdir (il.length + 1) il
    (if 0 < searchstep then 0 else (il.length : Int) - 1) (-1)

example :
    attach_tones_to_vowels [['a'], ['1']] [['1']] [['a']] (-1) 1 =
      some [['a', '1']] := by decide

example :
    attach_tones_to_vowels [['1'], ['a']] [['1']] [['a']] 1 (-1) =
      some [['1', 'a']] := by decide

example :
    attach_tones_to_vowels [['1'], ['x']] [['1']] [['a']] 1 (-1) =
      some [['1'], ['x']] := by decide

/-- The first alternative of the regex `"|".join(re.escape(k) for k in keys)`
matching at the start of `cs`: the first key (in insertion order) that is a
literal prefix of `cs`.  An empty mapping yields the empty pattern, which
matches the empty string everywhere; that is modelled by `some []`. -/
def firstAlt (m : Table) (cs : Str) : Option Str :=
  match m with
  | [] => some []
  | _ :: _ => (m.find? (fun kv => kv.1.isPrefixOf cs)).map (·.1)

/-- The semantics of
`re.sub(pattern, lambda match: reduction_mapping[match.group()], input)`
for `pattern` an alternation of escaped literal keys: a single left-to-right
non-overlapping pass; at each position the first matching alternative wins,
its replacement is emitted verbatim (never re-scanned) and the scan resumes
after the consumed key; unmatched characters are copied; a zero-width match
(empty key, or the empty pattern of an empty mapping) emits its replacement
and then copies one character, matching once more at the very end.  `none`
models the `KeyError` raised by the replacement lambda when the matched text
is not a key of the mapping (only possible for the empty pattern).  The fuel
argument makes the recursion structural; `cs.length + 1` always suffices. -/
def pythonSubBody (m : Table) (go : Str → Option Str) (cs : Str) : Option Str :=
  match firstAlt m cs with
  | none =>
    match cs with
    | [] => some []
    | c :: rest => (go rest).map (fun r => c :: r)
  | some k =>
    match lookup m k with
    | none => none
    | some v =>
      if k = [] then
        match cs with
        | [] => some v
        | c :: rest => (go rest).map (fun r => v ++ c :: r)
      else
        (go (cs.drop k.length)).map (fun r => v ++ r)

def pythonSubGo (m : Table) : Nat → Str → Option Str
  | 0, _ => none
  | fuel + 1, cs => pythonSubBody m (pythonSubGo m fuel) cs

/-- `re.sub` of the alternation of the mapping's keys over `cs`. -/
def pythonSub (m : Table) (cs : Str) : Option Str :=
  pythonSubGo m (cs.length + 1) cs

example : pythonSub [(['a'], ['b']), (['b'], ['c'])] ['a'] = some ['b'] := by decide

example :
    pythonSub [(['a'], ['x']), (['b'], ['y']), (['a', 'b'], ['z'])] ['a', 'b', 'c'] =
      some ['x', 'y', 'c'] := by decide

example : pythonSub [] ['a'] = none := by decide

example : pythonSub [([], ['x'])] ['a', 'b'] = some ['x', 'a', 'x', 'b', 'x'] := by decide

/-- Inner recursion of `_find_cascading_keys_in_symbol_mapping`: for each key
`k1` in order, pair it with every later key `k2` that contains `k1`'s value
as a substring (empty values are skipped). -/
def cascadeGo (m : Table) : List Str → List (Str × Str)
  | [] => []
  | k1 :: rest =>
    let current_value := (lookup m k1).getD []
    (if current_value = [] then []
     else rest.filterMap
       (fun k2 => if current_value <:+: k2 then some (k1, k2) else none))
      ++ cascadeGo m rest

/-- `_find_cascading_keys_in_symbol_mapping(symbol_inventory_map)`. -/
def _find_cascading_keys_in_symbol_mapping (symbol_inventory_map : Table) :
    List (Str × Str) :=
  cascadeGo symbol_inventory_map (symbol_inventory_map.map (·.1))

example :
    _find_cascading_keys_in_symbol_mapping [(['a'], ['b']), (['b', 'c'], ['a'])] =
      [(['a'], ['b', 'c'])] := by decide

example :
    _find_cascading_keys_in_symbol_mapping [(['a'], ['x']), (['b'], ['y'])] = [] := by
  decide

/-- `_get_extra_reduction_keys(original_mapping, reduction_mapping)`:
the keys of the reduction mapping that are not values of the original
mapping (a Python set; modelled as a deduplicated list, of which only
emptiness is consumed). -/
def _get_extra_reduction_keys (original_mapping reduction_mapping : Table) :
    List Str :=
  ((reduction_mapping.map (·.1)).filter
    (fun k => decide (k ∉ original_mapping.map (·.2)))).dedup

/-- `_post_process_reduction(input_string, original_translation_mapping,
reduction_mapping)`.  The two checks only drive `warnings.warn` calls in the
source; they are computed here and discarded, never affecting the result. -/
def _post_process_reduction (input_string : Str)
    (original_translation_mapping reduction_mapping : Table) : Option Str :=
  let _cascading_keys := _find_cascading_keys_in_symbol_mapping reduction_mapping
  let _new_keys := _get_extra_reduction_keys original_translation_mapping reduction_mapping
  pythonSub reduction_mapping input_string

/-- `CODES`, the known phone codes (a Python set; only membership is used). -/
def CODES : List String :=
  ["ipa", "arpabet", "xsampa", "disc", "callhome", "buckeye", "timit"]

/-- The distinguishable error conditions of the conversion façade, modelling
the Python exceptions it can raise. -/
inductive PCError where
  /-- `ValueError` from `_verify_code`, naming the invalid code. -/
  | invalidCode (code : String)
  /-- `ValueError` from `Phonecodes.as_member` for an unsupported pairing. -/
  | invalidPairing (c0 c1 : String)
  /-- `ValueError` from `ipa2timit`: closure symbols are unrecoverable. -/
  | timitUnsupported
  /-- `ValueError` from `max()` in `translate_string` on an empty table. -/
  | emptyTableMax
  /-- `KeyError` from the replacement lambda in `_post_process_reduction`. -/
  | postProcessKeyError
  /-- Divergence of the tone-attachment loop (unreachable for the
  configured `searchstep` values `1` and `-1`). -/
  | nonterminating
deriving DecidableEq, Repr

/-- A resolved conversion identity: the `(in_code, out_code, language)`
value of a `Phonecodes` enum member (`language = none` for the two-element
enum values). -/
abbrev PhonecodeId := String × String × Option String

/-- The two-element `Phonecodes` enum values (language-independent). -/
def pairValues : List (String × String) :=
  [("ipa", "xsampa"), ("xsampa", "ipa"), ("disc", "ipa"), ("ipa", "disc"),
   ("arpabet", "ipa"), ("ipa", "arpabet"), ("timit", "ipa"),
   ("buckeye", "ipa"), ("ipa", "buckeye")]

/-- The three-element `Phonecodes` enum values (language-specific). -/
def tripleValues : List (String × String × String) :=
  [("disc", "ipa", "nld"), ("disc", "ipa", "eng"),
   ("callhome", "ipa", "arz"), ("callhome", "ipa", "cmn"), ("callhome", "ipa", "spa"),
   ("ipa", "callhome", "arz"), ("ipa", "callhome", "cmn"), ("ipa", "callhome", "spa")]

/-- `Phonecodes.as_member(in_code, out_code, language)`: the tuple
`(in_code, out_code, language)` is tried against the enum values first
(it can only match a three-element value, so never when `language` is
`None`), then `(in_code, out_code)` against the two-element values. -/
def as_member (in_code out_code : String) (language : Option String) :
    Except PCError PhonecodeId :=
  match language with
  | some lang =>
    if (in_code, out_code, lang) ∈ tripleValues then
      Except.ok (in_code, out_code, some lang)
    else if (in_code, out_code) ∈ pairValues then Except.ok (in_code, out_code, none)
    else Except.error (PCError.invalidPairing in_code out_code)
  | none =>
    if (in_code, out_code) ∈ pairValues then Except.ok (in_code, out_code, none)
    else Except.error (PCError.invalidPairing in_code out_code)

/-- The settings for tone or stress attachment (`AttachStressTonesConfig`). -/
structure AttachStressTonesConfig where
  tones : List Str
  vowels : List Str
  searchstep : Int
  catdir : Int

/-- The table data the façade consumes: `_phonecode_lookup` and
`_tone_stress_settings`.  Their contents come from `phonecode_tables.py`,
which is configuration data external to the core (its symbol tables are not
part of the verified source), so they are parameters here; every theorem
about the façade holds for all instantiations. -/
structure Env where
  tables : PhonecodeId → Table
  toneSettings : PhonecodeId → Option AttachStressTonesConfig

/-- Python `str.upper()` (modelled characterwise). -/
def upper (s : Str) : Str := s.map Char.toUpper

/-- Python `str.strip()`: remove leading and trailing whitespace. -/
def strip (s : Str) : Str :=
  ((s.dropWhile Char.isWhitespace).reverse.dropWhile Char.isWhitespace).reverse

/-- `convert(s0, c0, c1, language, post_conversion_mapping)`: verify both
codes, resolve the conversion identity, upper-case the input for the
upper-case-keyed tables, translate, attach tones/stress when configured,
join, optionally post-process, and strip. -/
def convert (env : Env) (s0 : Str) (c0 c1 : String)
    (language : Option String := none)
    (post_conversion_mapping : Option Table := none) : Except PCError Str :=
  if c0 ∉ CODES then Except.error (PCError.invalidCode c0)
  else if c1 ∉ CODES then Except.error (PCError.invalidCode c1)
  else
    match as_member c0 c1 language with
    | Except.error e => Except.error e
    | Except.ok pc =>
      let translation_mapping := env.tables pc
      let input_string :=
        if pc = ("arpabet", "ipa", none) ∨ pc = ("buckeye", "ipa", none) ∨
            pc = ("timit", "ipa", none) then
          upper s0
        else s0
      match translate_string input_string translation_mapping with
      | none => Except.error PCError.emptyTableMax
      | some (mapped_string, _ttf) =>
        let mergedOpt :=
          match env.toneSettings pc with
          | some cfg =>
            attach_tones_to_vowels mapped_string cfg.tones cfg.vowels
              cfg.searchstep cfg.catdir
          | none => some mapped_string
        match mergedOpt with
        | none => Except.error PCError.nonterminating
        | some merged =>
          let final_string := merged.flatten
          match post_conversion_mapping with
          | none => Except.ok (strip final_string)
          | some red =>
            match _post_process_reduction final_string translation_mapping red with
            | none => Except.error PCError.postProcessKeyError
            | some reduced => Except.ok (strip reduced)

/-- `ipa2timit(x, language, post_conversion_mapping)`: raises unconditionally,
before reaching `convert`, because TIMIT closure symbols for stops cannot be
determined from text. -/
def ipa2timit (_env : Env) (_x : Str) (_language : Option String := none)
    (_post_conversion_mapping : Option Table := none) : Except PCError Str :=
  Except.error PCError.timitUnsupported

/-! ### Derived notions used by the verification -/

/-- A trivially instantiated table environment, used to exercise façade
theorems at concrete inputs. -/
def trivialEnv : Env := ⟨fun _ => [], fun _ => none⟩

/-- `r` is the first cost-minimal element of `l`:
it occurs at an index where it attains the minimum cost over `l`, and every
strictly earlier element has strictly larger cost. -/
def FirstMinAt (l : List Node) (r : Node) : Prop :=
  ∃ i, i < l.length ∧ l.getD i default = r ∧
    (∀ j, j < l.length → r.cost ≤ (l.getD j default).cost) ∧
    (∀ j, j < i → r.cost < (l.getD j default).cost)

/-- Pointwise conditions produced by the segmenting translator: `segs` lists
the consumed substrings, `tl` the emitted symbols, `ttf` the hit flags; a hit
emits the table value of the (necessarily non-empty) consumed key, a miss
emits the consumed substring itself, which is a single character. -/
def PiecesOk (d : Table) (segs tl : List Str) (ttf : List Bool) : Prop :=
  ∀ i, i < tl.length →
    (ttf.getD i false = true →
      lookup d (segs.getD i []) = some (tl.getD i []) ∧ segs.getD i [] ≠ []) ∧
    (ttf.getD i false = false →
      tl.getD i [] = segs.getD i [] ∧ (segs.getD i []).length = 1)

/-- Total path cost of a hit-flag sequence: `symcost` per translated symbol,
`oovcost` per untranslatable one. -/
def flagsCost (ttf : List Bool) : Nat :=
  (ttf.map (fun b => if b then symcost else oovcost)).sum

/-- A legal piece of a decomposition: a flagged-hit piece is a key of the
table (and non-empty); a flagged-miss piece is a single character. -/
def pieceOk (d : Table) (pb : Str × Bool) : Prop :=
  if pb.2 then (lookup d pb.1).isSome ∧ pb.1 ≠ [] else pb.1.length = 1

/-- Total path cost of a decomposition. -/
def piecesCost (ps : List (Str × Bool)) : Nat :=
  (ps.map (fun pb => if pb.2 then symcost else oovcost)).sum

/-- `c` is the cost of some decomposition of `cs` into table keys (cost
`symcost` each) and untranslatable single characters (cost `oovcost` each). -/
def DecompCost (d : Table) (cs : Str) (c : Nat) : Prop :=
  ∃ ps : List (Str × Bool), (ps.map Prod.fst).flatten = cs ∧
    (∀ pb ∈ ps, pieceOk d pb) ∧ c = piecesCost ps

/-- The invariant of the lattice built by `translate_string`: entry `0` is the
base record, and every later entry points strictly backwards and is either a
table hit whose symbol translates exactly the consumed substring, or the
untranslatable-singleton record; costs accumulate along the links. -/
def latOk (s : Str) (d : Table) (lat : List Node) : Prop :=
  lat.getD 0 default = ⟨0, 0, [], true⟩ ∧
  lat.length ≤ s.length + 1 ∧
  ∀ k, 1 ≤ k → k < lat.length →
    (lat.getD k default).back < k ∧
    ((lat.getD k default).hit = true →
      lookup d (substr s (lat.getD k default).back k) =
        some (lat.getD k default).sym ∧
      (lat.getD k default).cost =
        symcost + (lat.getD (lat.getD k default).back default).cost) ∧
    ((lat.getD k default).hit = false →
      (lat.getD k default).back = k - 1 ∧
      (lat.getD k default).sym = substr s (k - 1) k ∧
      (lat.getD k default).cost = oovcost + (lat.getD (k - 1) default).cost)

/-! ### Helper lemmas -/

theorem pythonSubGo_succ (m : Table) (fuel : Nat) (cs : Str) :
    pythonSubGo m (fuel + 1) cs = pythonSubBody m (pythonSubGo m fuel) cs := rfl

theorem foldl_stepAt_eq_filterMap (s : Str) (d : Table) (lat : List Node) (n : Nat)
    (ms : List Nat) :
    ∀ init : Node,
      ms.foldl (stepAt s d lat n) init =
        (ms.filterMap (hitCandidate s d lat n)).foldl chooseCheaper init := by
  induction ms with
  | nil => intro init; rfl
  | cons m ms ih =>
    intro init
    rw [List.foldl_cons]
    cases h : hitCandidate s d lat n m with
    | none =>
      rw [List.filterMap_cons_none h, stepAt, h]
      exact ih init
    | some cand =>
      rw [List.filterMap_cons_some h, List.foldl_cons, stepAt, h]
      exact ih (chooseCheaper init cand)

theorem foldl_chooseCheaper_firstMinAt (l : List Node) :
    ∀ init : Node, FirstMinAt (init :: l) (l.foldl chooseCheaper init) := by
  induction l with
  | nil =>
    intro init
    refine ⟨0, by simp, rfl, ?_, ?_⟩
    · intro j hj
      have hj0 : j = 0 := by simpa using Nat.lt_one_iff.mp (by simpa using hj)
      subst hj0; simp
    · intro j hj; omega
  | cons c l ih =>
    intro init
    rw [List.foldl_cons]
    by_cases hc : c.cost < init.cost
    · have hcc : chooseCheaper init c = c := if_pos hc
      rw [hcc]
      obtain ⟨i, hi, hget, hmin, hstrict⟩ := ih c
      refine ⟨i + 1, by simpa using hi, by simpa using hget, ?_, ?_⟩
      · intro j hj
        match j with
        | 0 =>
          have h0 := hmin 0 (by simp)
          simp only [List.getD_cons_zero] at h0 ⊢
          exact le_of_lt (lt_of_le_of_lt h0 hc)
        | j + 1 =>
          have := hmin j (by simpa using hj)
          simpa using this
      · intro j hj
        match j with
        | 0 =>
          have h0 := hmin 0 (by simp)
          simp only [List.getD_cons_zero] at h0 ⊢
          exact lt_of_le_of_lt h0 hc
        | j + 1 =>
          have := hstrict j (by omega)
          simpa using this
    · have hcc : chooseCheaper init c = init := if_neg hc
      rw [hcc]
      obtain ⟨i, hi, hget, hmin, hstrict⟩ := ih init
      have hic : init.cost ≤ c.cost := Nat.le_of_not_lt hc
      match i, hi, hget, hstrict with
      | 0, hi, hget, hstrict =>
        simp only [List.getD_cons_zero] at hget
        refine ⟨0, by simp, by simpa using hget, ?_, ?_⟩
        · intro j hj
          match j with
          | 0 => simp [← hget]
          | 1 =>
            simp only [List.getD_cons_succ, List.getD_cons_zero, ← hget]
            exact hic
          | j + 2 =>
            have hj' : j + 1 < (init :: l).length := by simp at hj ⊢; omega
            have := hmin (j + 1) hj'
            simpa using this
        · intro j hj; omega
      | i + 1, hi, hget, hstrict =>
        have h0 : (l.foldl chooseCheaper init).cost < init.cost := by
          simpa using hstrict 0 (by omega)
        refine ⟨i + 2, by simpa using hi, by simpa using hget, ?_, ?_⟩
        · intro j hj
          match j with
          | 0 => simpa using le_of_lt h0
          | 1 =>
            simp only [List.getD_cons_succ, List.getD_cons_zero]
            exact le_of_lt (lt_of_lt_of_le h0 hic)
          | j + 2 =>
            have hj' : j + 1 < (init :: l).length := by simp at hj ⊢; omega
            have := hmin (j + 1) hj'
            simpa using this
        · intro j hj
          match j with
          | 0 => simpa using h0
          | 1 =>
            simp only [List.getD_cons_succ, List.getD_cons_zero]
            exact lt_of_lt_of_le h0 hic
          | j + 2 =>
            have := hstrict (j + 1) (by omega)
            simpa using this

theorem nodeAt_firstMinAt (s : Str) (d : Table) (lat : List Node) (n maxsym : Nat) :
    FirstMinAt (candidates s d lat n maxsym) (nodeAt s d lat n maxsym) := by
  unfold nodeAt candidates
  rw [foldl_stepAt_eq_filterMap]
  exact foldl_chooseCheaper_firstMinAt _ _

/-- C3: In `translate_string`, a table hit replaces the current arrival record
at position `n` only when its total cost is strictly smaller than the recorded
cost, so the filled lattice entry is the FIRST cost-minimal element of the
candidate list (the untranslatable-singleton record followed by the table hits
for ascending key lengths `m = 1, 2, ...`): at equal total cost, the earlier
candidate — a shorter matched key, or the initial untranslatable record — wins.
Concretely, for the table `{a:A, ab:AB, b:B, bb:BB}` and input `abb`, the two
equal-cost decompositions `AB+B` (final key `b`) and `A+BB` (final key `bb`)
are resolved in favour of the shorter final key. -/
theorem translate_string_tiebreak_first_candidate_wins (s : Str) (d : Table)
    (lat : List Node) (n maxsym : Nat) :
    FirstMinAt (candidates s d lat n maxsym) (nodeAt s d lat n maxsym) ∧
    translate_string ['a', 'b', 'b']
        [(['a'], ['A']), (['a', 'b'], ['A', 'B']), (['b'], ['B']),
          (['b', 'b'], ['B', 'B'])] =
      some ([['A', 'B'], ['B']], [true, true]) :=
  ⟨nodeAt_firstMinAt s d lat n maxsym, by decide⟩

/-- C5: With an invalid input or output code, `convert` fails with a
`ValueError` naming the invalid code, before any table lookup (the result does
not depend on the table environment at all), producing no partial output. -/
theorem convert_invalid_code_fails_first (env env' : Env) (s0 : Str)
    (c0 c1 : String) (language : Option String) (pcm : Option Table)
    (h : c0 ∉ CODES ∨ c1 ∉ CODES) :
    (∃ c, (c = c0 ∨ c = c1) ∧ c ∉ CODES ∧
        convert env s0 c0 c1 language pcm = Except.error (PCError.invalidCode c)) ∧
    convert env s0 c0 c1 language pcm = convert env' s0 c0 c1 language pcm := by
  by_cases h0 : c0 ∉ CODES
  · have e1 : ∀ e : Env,
        convert e s0 c0 c1 language pcm = Except.error (PCError.invalidCode c0) := by
      intro e; unfold convert; rw [if_pos h0]
    exact ⟨⟨c0, Or.inl rfl, h0, e1 env⟩, (e1 env).trans (e1 env').symm⟩
  · have h1 : c1 ∉ CODES := h.resolve_left h0
    have e1 : ∀ e : Env,
        convert e s0 c0 c1 language pcm = Except.error (PCError.invalidCode c1) := by
      intro e; unfold convert; rw [if_neg h0, if_pos h1]
    exact ⟨⟨c1, Or.inr rfl, h1, e1 env⟩, (e1 env).trans (e1 env').symm⟩

theorem convert_invalid_code_fails_first_witness :
    (("klingon" : String) ∉ CODES ∨ ("ipa" : String) ∉ CODES) ∧
    ((∃ c, (c = "klingon" ∨ c = "ipa") ∧ c ∉ CODES ∧
        convert trivialEnv [] "klingon" "ipa" none none =
          Except.error (PCError.invalidCode c)) ∧
      convert trivialEnv [] "klingon" "ipa" none none =
        convert trivialEnv [] "klingon" "ipa" none none) :=
  ⟨Or.inl (by decide),
    convert_invalid_code_fails_first trivialEnv trivialEnv [] "klingon" "ipa" none none
      (Or.inl (by decide))⟩

/-- C6: `ipa2timit` fails unconditionally, for every input, language and
post-conversion mapping, with the error explaining the structural reason
(closure symbols are not recoverable from text); this error is distinguishable
from — and independent of — the generic unsupported-pairing error that
`convert` itself would produce for the `ipa → timit` direction. -/
theorem ipa2timit_unconditional_failure (env : Env) (x : Str)
    (language : Option String) (pcm : Option Table) :
    ipa2timit env x language pcm = Except.error PCError.timitUnsupported ∧
    (∀ c0 c1, PCError.timitUnsupported ≠ PCError.invalidPairing c0 c1) ∧
    (∀ env2 : Env, convert env2 x "ipa" "timit" language pcm =
        Except.error (PCError.invalidPairing "ipa" "timit")) := by
  refine ⟨rfl, ?_, ?_⟩
  · intro c0 c1 h
    cases h
  intro env2
  have hmem : as_member "ipa" "timit" language =
      Except.error (PCError.invalidPairing "ipa" "timit") := by
    cases language with
    | none => rfl
    | some lang =>
      have h1 : ("ipa", "timit", lang) ∉ tripleValues := by simp [tripleValues]
      have h2 : ("ipa", "timit") ∉ pairValues := by decide
      simp [as_member, h1, h2]
  unfold convert
  rw [if_neg (by decide), if_neg (by decide), hmem]

theorem lookup_isSome_of_mem {m : Table} {kv : Str × Str} (h : kv ∈ m) :
    (lookup m kv.1).isSome := by
  unfold lookup
  cases hf : m.find? (fun kv2 => kv2.1 == kv.1) with
  | none =>
    exfalso
    exact absurd (by simp) (List.find?_eq_none.mp hf kv h)
  | some x => rfl

theorem firstAlt_spec {m : Table} {cs k : Str} (hm : m ≠ [])
    (h : firstAlt m cs = some k) :
    ∃ kv, kv ∈ m ∧ kv.1 = k ∧ k.isPrefixOf cs = true := by
  cases m with
  | nil => exact absurd rfl hm
  | cons a l =>
    unfold firstAlt at h
    cases hf : (a :: l).find? (fun kv => kv.1.isPrefixOf cs) with
    | none => rw [hf] at h; simp at h
    | some kv =>
      rw [hf] at h
      simp only [Option.map_some', Option.some.injEq] at h
      have hp : kv.1.isPrefixOf cs = true := by
        have := List.find?_some hf
        simpa using this
      exact ⟨kv, List.mem_of_find?_eq_some hf, h, h ▸ hp⟩

theorem prefix_length_le_of_isPrefixOf {k cs : Str} (h : k.isPrefixOf cs = true) :
    k.length ≤ cs.length :=
  List.IsPrefix.length_le ( List.isPrefixOf_iff_prefix.mp h)

theorem pythonSubGo_isSome {m : Table} (hm : m ≠ []) :
    ∀ fuel cs, cs.length < fuel → (pythonSubGo m fuel cs).isSome := by
  intro fuel
  induction fuel with
  | zero => intro cs h; omega
  | succ fuel ih =>
    intro cs h
    rw [pythonSubGo_succ]
    unfold pythonSubBody
    split
    · -- no alternative matches at this position
      cases cs with
      | nil => simp
      | cons c rest =>
        have := ih rest (by simp at h; omega)
        simpa using this
    · next k hfa =>
      obtain ⟨kv, hkv, hk1, hpre⟩ := firstAlt_spec hm hfa
      have hl : (lookup m k).isSome := hk1 ▸ lookup_isSome_of_mem hkv
      split
      · next hnone => rw [hnone] at hl; simp at hl
      · next v hv =>
        by_cases hke : k = []
        · rw [if_pos hke]
          cases cs with
          | nil => simp
          | cons c rest =>
            have := ih rest (by simp at h; omega)
            simpa using this
        · rw [if_neg hke]
          have hkl : 1 ≤ k.length := by
            cases k with
            | nil => exact absurd rfl hke
            | cons a t => simp
          have hcl : k.length ≤ cs.length := prefix_length_le_of_isPrefixOf hpre
          have := ih (cs.drop k.length) (by simp; omega)
          simpa using this

/-- C9 (amended): for every input string, original table, and NON-EMPTY
reduction mapping, `_post_process_reduction` returns a string and never
raises; the cascade check and the extra-key check are advisory only and never
affect (let alone block) the substitution.  (With the EMPTY mapping, the
source raises: see the counterexample.) -/
theorem post_process_reduction_total (input_string : Str) (orig red : Table)
    (hred : red ≠ []) :
    (_post_process_reduction input_string orig red).isSome ∧
    _post_process_reduction input_string orig red = pythonSub red input_string := by
  refine ⟨?_, rfl⟩
  exact pythonSubGo_isSome hred (input_string.length + 1) input_string (by omega)

theorem post_process_reduction_total_witness :
    ([(['a'], ['b'])] : Table) ≠ [] ∧
    ((_post_process_reduction ['a', 'x'] [(['A'], ['a'])] [(['a'], ['b'])]).isSome ∧
      _post_process_reduction ['a', 'x'] [(['A'], ['a'])] [(['a'], ['b'])] =
        pythonSub [(['a'], ['b'])] ['a', 'x']) :=
  ⟨by decide,
    post_process_reduction_total ['a', 'x'] [(['A'], ['a'])] [(['a'], ['b'])]
      (by decide)⟩

theorem pythonSubGo_fuel_irrel (m : Table) :
    ∀ fuel, ∀ fuel' cs, cs.length < fuel → cs.length < fuel' →
      pythonSubGo m fuel cs = pythonSubGo m fuel' cs := by
  intro fuel
  induction fuel with
  | zero => intro fuel' cs h h'; omega
  | succ fuel ih =>
    intro fuel' cs h h'
    cases fuel' with
    | zero => omega
    | succ fuel' =>
      rw [pythonSubGo_succ, pythonSubGo_succ]
      unfold pythonSubBody
      split
      · -- no alternative matches at this position
        cases cs with
        | nil => rfl
        | cons c rest =>
          exact congrArg (Option.map (fun r => c :: r))
            (ih fuel' rest (by simp at h; omega) (by simp at h'; omega))
      · next k hfa =>
        split
        · rfl
        · next v hlk =>
          by_cases hke : k = []
          · rw [if_pos hke, if_pos hke]
            cases cs with
            | nil => rfl
            | cons c rest =>
              exact congrArg (Option.map (fun r => v ++ c :: r))
                (ih fuel' rest (by simp at h; omega) (by simp at h'; omega))
          · rw [if_neg hke, if_neg hke]
            have hm : m ≠ [] := by
              intro hme
              subst hme
              simp only [firstAlt, Option.some.injEq] at hfa
              exact hke hfa.symm
            obtain ⟨kv, hkv, hk1, hpre⟩ := firstAlt_spec hm hfa
            have hkl : 1 ≤ k.length := by
              cases k with
              | nil => exact absurd rfl hke
              | cons a t => simp
            have hcl : k.length ≤ cs.length := prefix_length_le_of_isPrefixOf hpre
            exact congrArg (Option.map (fun r => v ++ r))
              (ih fuel' (cs.drop k.length) (by simp; omega) (by simp; omega))

theorem pythonSubGo_eq_pythonSub (m : Table) (fuel : Nat) (cs : Str)
    (h : cs.length < fuel) : pythonSubGo m fuel cs = pythonSub m cs :=
  pythonSubGo_fuel_irrel m fuel (cs.length + 1) cs h (by omega)

/-- C4: The post-processing substitution is a single left-to-right
non-overlapping pass.  Whenever the alternation matches key `k` at the current
position: (1) `k` occurs in the mapping and every key declared EARLIER in the
mapping's insertion order fails to match at this position (first-declared key
wins, deterministically); (2) the replacement value is emitted verbatim and the
scan resumes after the consumed key — the replacement output is never
re-scanned.  Concretely, for mapping `{a:b, b:c}` applied to input `a` the
result is `b`, not `c` (no cascading). -/
theorem post_process_single_pass_priority (m : Table) (cs k : Str)
    (hm : m ≠ []) (hfa : firstAlt m cs = some k) :
    (∃ pre post v, m = pre ++ (k, v) :: post ∧ k.isPrefixOf cs = true ∧
        ∀ kv ∈ pre, kv.1.isPrefixOf cs = false) ∧
    (∀ v, lookup m k = some v → k ≠ [] →
        pythonSub m cs = (pythonSub m (cs.drop k.length)).map (fun r => v ++ r)) ∧
    _post_process_reduction ['a'] [] [(['a'], ['b']), (['b'], ['c'])] = some ['b'] ∧
    _post_process_reduction ['a'] [] [(['a'], ['b']), (['b'], ['c'])] ≠ some ['c'] := by
  refine ⟨?_, ?_, by decide, by decide⟩
  · cases m with
    | nil => exact absurd rfl hm
    | cons a l =>
      have hf' := hfa
      unfold firstAlt at hf'
      cases hf : (a :: l).find? (fun kv => kv.1.isPrefixOf cs) with
      | none => rw [hf] at hf'; simp at hf'
      | some kv =>
        rw [hf] at hf'
        simp only [Option.map_some', Option.some.injEq] at hf'
        rw [List.find?_eq_some] at hf
        obtain ⟨hp, as, bs, heq, hall⟩ := hf
        refine ⟨as, bs, kv.2, ?_, ?_, ?_⟩
        · rw [heq]
          congr 1
          rw [← hf']
        · rw [← hf']
          simpa using hp
        · intro kv' hkv'
          have := hall kv' hkv'
          simpa using this
  · intro v hv hke
    have hmne := hm
    obtain ⟨kv, hkv, hk1, hpre⟩ := firstAlt_spec hmne hfa
    have hkl : 1 ≤ k.length := by
      cases k with
      | nil => exact absurd rfl hke
      | cons a t => simp
    have hcl : k.length ≤ cs.length := prefix_length_le_of_isPrefixOf hpre
    show pythonSubGo m (cs.length + 1) cs = _
    rw [pythonSubGo_succ]
    unfold pythonSubBody
    simp only [hfa, hv]
    rw [if_neg hke]
    rw [pythonSubGo_eq_pythonSub m cs.length (cs.drop k.length) (by simp; omega)]

theorem post_process_single_pass_priority_witness :
    (([(['a'], ['b']), (['b'], ['c'])] : Table) ≠ [] ∧
      firstAlt [(['a'], ['b']), (['b'], ['c'])] ['a'] = some ['a']) ∧
    ((∃ pre post v,
        ([(['a'], ['b']), (['b'], ['c'])] : Table) = pre ++ (['a'], v) :: post ∧
        List.isPrefixOf ['a'] ['a'] = true ∧
        ∀ kv ∈ pre, List.isPrefixOf kv.1 ['a'] = false) ∧
      (∀ v, lookup [(['a'], ['b']), (['b'], ['c'])] ['a'] = some v → ['a'] ≠ [] →
        pythonSub [(['a'], ['b']), (['b'], ['c'])] ['a'] =
          (pythonSub [(['a'], ['b']), (['b'], ['c'])]
            (List.drop (List.length ['a']) ['a'])).map (fun r => v ++ r)) ∧
      _post_process_reduction ['a'] [] [(['a'], ['b']), (['b'], ['c'])] = some ['b'] ∧
      _post_process_reduction ['a'] [] [(['a'], ['b']), (['b'], ['c'])] ≠ some ['c']) :=
  ⟨⟨by decide, by decide⟩,
    post_process_single_pass_priority [(['a'], ['b']), (['b'], ['c'])] ['a'] ['a']
      (by decide) (by decide)⟩

theorem backtrace_succ (lat : List Node) (fuel n : Nat) :
    backtrace lat (fuel + 1) (n + 1) =
      ((backtrace lat fuel (lat.getD (n + 1) default).back).1 ++
          [(lat.getD (n + 1) default).sym],
        (backtrace lat fuel (lat.getD (n + 1) default).back).2 ++
          [(lat.getD (n + 1) default).hit]) := rfl

theorem latticeUpTo_length (s : Str) (d : Table) (maxsym : Nat) :
    ∀ n, (latticeUpTo s d maxsym n).length = n + 1 := by
  intro n
  induction n with
  | zero => rfl
  | succ n ih => simp [latticeUpTo, ih]

theorem latticeUpTo_succ (s : Str) (d : Table) (maxsym n : Nat) :
    latticeUpTo s d maxsym (n + 1) =
      latticeUpTo s d maxsym n ++
        [nodeAt s d (latticeUpTo s d maxsym n) (n + 1) maxsym] := rfl

theorem latticeUpTo_getD_stable (s : Str) (d : Table) (maxsym : Nat) (dflt : Node)
    (n : Nat) : ∀ n' k, n ≤ n' → k ≤ n →
      (latticeUpTo s d maxsym n').getD k dflt =
        (latticeUpTo s d maxsym n).getD k dflt := by
  intro n'
  induction n' with
  | zero =>
    intro k h hk
    have hn : n = 0 := by omega
    subst hn; rfl
  | succ n' ih =>
    intro k h hk
    rcases Nat.eq_or_lt_of_le h with heq | hlt
    · subst heq; rfl
    · have hn : n ≤ n' := by omega
      rw [latticeUpTo_succ, List.getD_eq_getElem?_getD,
        List.getElem?_append_left (by rw [latticeUpTo_length]; omega),
        ← List.getD_eq_getElem?_getD]
      exact ih k hn hk

theorem latticeUpTo_getD_last (s : Str) (d : Table) (maxsym n : Nat) (dflt : Node) :
    (latticeUpTo s d maxsym (n + 1)).getD (n + 1) dflt =
      nodeAt s d (latticeUpTo s d maxsym n) (n + 1) maxsym := by
  rw [latticeUpTo_succ, List.getD_eq_getElem?_getD,
    List.getElem?_append_right (by rw [latticeUpTo_length])]
  rw [latticeUpTo_length]
  simp

theorem substr_isInf (s : Str) (a b : Nat) : substr s a b <:+: s := by
  have h1 := List.take_prefix (b - a) (s.drop a)
  have h2 := List.drop_suffix a s
  exact List.IsInfix.trans ( List.IsPrefix.isInfix h1) ( List.IsSuffix.isInfix h2)

theorem lookup_eq_none_of_no_key (d : Table) (k : Str)
    (h : ∀ kv ∈ d, kv.1 ≠ k) : lookup d k = none := by
  unfold lookup
  have : d.find? (fun kv => kv.1 == k) = none := by
    rw [List.find?_eq_none]
    intro kv hkv
    simpa using h kv hkv
  rw [this]
  rfl

theorem hitCandidate_eq_none_of_no_inf (s : Str) (d : Table) (lat : List Node)
    (n m : Nat) (hno : ∀ kv ∈ d, ¬(kv.1 <:+: s)) :
    hitCandidate s d lat n m = none := by
  have hl : lookup d (substr s (n - m) n) = none :=
    lookup_eq_none_of_no_key _ _
      (fun kv hkv heq => hno kv hkv (heq ▸ substr_isInf s (n - m) n))
  unfold hitCandidate
  rw [hl]
  rfl

theorem nodeAt_eq_initNode_of_no_inf (s : Str) (d : Table) (lat : List Node)
    (n maxsym : Nat) (hno : ∀ kv ∈ d, ¬(kv.1 <:+: s)) :
    nodeAt s d lat n maxsym = initNode s lat n := by
  unfold nodeAt
  generalize List.range' 1 (min n maxsym) = ms
  induction ms with
  | nil => rfl
  | cons m ms ih =>
    rw [List.foldl_cons]
    have hs : stepAt s d lat n (initNode s lat n) m = initNode s lat n := by
      unfold stepAt
      rw [hitCandidate_eq_none_of_no_inf s d lat n m hno]
    rw [hs]
    exact ih

theorem lattice_all_miss (s : Str) (d : Table) (maxsym : Nat)
    (hno : ∀ kv ∈ d, ¬(kv.1 <:+: s)) :
    ∀ n k, k ≤ n →
      (latticeUpTo s d maxsym n).getD k default =
        if k = 0 then ⟨0, 0, [], true⟩
        else ⟨oovcost * k, k - 1, substr s (k - 1) k, false⟩ := by
  intro n
  induction n with
  | zero =>
    intro k hk
    have hk0 : k = 0 := by omega
    subst hk0
    simp [latticeUpTo]
  | succ n ih =>
    intro k hk
    rcases Nat.lt_or_ge k (n + 1) with hlt | hge
    · have hk' : k ≤ n := by omega
      rw [latticeUpTo_getD_stable s d maxsym default n (n + 1) k (by omega) hk']
      exact ih k hk'
    · have hkeq : k = n + 1 := by omega
      subst hkeq
      rw [latticeUpTo_getD_last,
        nodeAt_eq_initNode_of_no_inf s d (latticeUpTo s d maxsym n) (n + 1) maxsym hno]
      unfold initNode
      rw [if_neg (by omega)]
      have hn := ih n (le_refl n)
      rw [show n + 1 - 1 = n from rfl, hn]
      by_cases h0 : n = 0
      · subst h0
        simp [oovcost]
      · rw [if_neg h0]
        have hc : oovcost + oovcost * n = oovcost * (n + 1) := by
          simp only [oovcost]
          omega
        simp [hc]

theorem backtrace_all_miss (s : Str) (d : Table) (maxsym : Nat)
    (hno : ∀ kv ∈ d, ¬(kv.1 <:+: s)) :
    ∀ n fuel, n ≤ fuel → n ≤ s.length →
      backtrace (latticeUpTo s d maxsym s.length) fuel n =
        ((s.take n).map (fun c => [c]), (s.take n).map (fun _ => false)) := by
  intro n
  induction n with
  | zero =>
    intro fuel _ _
    cases fuel <;> simp [backtrace]
  | succ n ih =>
    intro fuel hf hlen
    cases fuel with
    | zero => omega
    | succ f =>
      have hnlt : n < s.length := by omega
      have hnd : (latticeUpTo s d maxsym s.length).getD (n + 1) default =
          ⟨oovcost * (n + 1), n, substr s n (n + 1), false⟩ := by
        rw [lattice_all_miss s d maxsym hno s.length (n + 1) (by omega),
          if_neg (by omega)]
        simp
      have hsub : substr s n (n + 1) = [s.get ⟨n, hnlt⟩] := by
        unfold substr
        have h1 : n + 1 - n = 1 := by omega
        rw [h1, List.drop_eq_getElem_cons hnlt]
        rfl
      have htake : s.take (n + 1) = s.take n ++ [s.get ⟨n, hnlt⟩] := by
        rw [List.take_succ, List.getElem?_eq_getElem hnlt]
        simp
      rw [backtrace_succ, hnd]
      dsimp only
      rw [ih f (by omega) (by omega), hsub, htake, List.map_append, List.map_append]
      simp

/-- C8 (amended): `translate_string` applied with an EMPTY symbol table raises
(the `max()` over the empty key set), modelled by `none` — see the
counterexample.  For every NON-EMPTY symbol table it never raises and always
terminates; in particular when no key of the table occurs as a substring of
the input, it degrades to treating every character as untranslatable,
returning the all-miss result. -/
theorem translate_string_total_nonempty_table (s : Str) (d : Table) (hd : d ≠ []) :
    (translate_string s d).isSome ∧
    ((∀ kv ∈ d, ¬(kv.1 <:+: s)) →
      translate_string s d =
        some (s.map (fun c => [c]), s.map (fun _ => false))) := by
  obtain ⟨maxsym, hmax⟩ : ∃ M, maxsymOpt d = some M := by
    cases d with
    | nil => exact absurd rfl hd
    | cons a l => exact ⟨_, rfl⟩
  constructor
  · unfold translate_string
    rw [hmax]
    rfl
  · intro hno
    unfold translate_string
    rw [hmax]
    dsimp only
    rw [backtrace_all_miss s d maxsym hno s.length s.length (le_refl _) (le_refl _),
      List.take_length]

theorem translate_string_total_nonempty_table_witness :
    ([(['c'], ['X'])] : Table) ≠ [] ∧
    ((translate_string ['a', 'b'] [(['c'], ['X'])]).isSome ∧
      ((∀ kv ∈ ([(['c'], ['X'])] : Table), ¬(kv.1 <:+: ['a', 'b'])) →
        translate_string ['a', 'b'] [(['c'], ['X'])] =
          some ((['a', 'b'] : Str).map (fun c => [c]),
            (['a', 'b'] : Str).map (fun _ => false)))) :=
  ⟨by decide,
    translate_string_total_nonempty_table ['a', 'b'] [(['c'], ['X'])] (by decide)⟩

/-- C8 counterexample: with the EMPTY symbol table, `translate_string` raises
for every input — even before looking at it — because it computes
`max(len(k) for k in d.keys())` over an empty sequence; here at the concrete
input `"a"`. -/
theorem translate_string_empty_table_raises :
    translate_string ['a'] [] = none := by decide

/-- C9 counterexample: with the EMPTY reduction mapping the source raises a
`KeyError` (the joined alternation is the empty pattern, which matches the
empty string at position 0, and the replacement lambda looks up the matched
text `""` in the empty mapping), modelled by `none`. -/
theorem post_process_reduction_empty_mapping_raises :
    _post_process_reduction ['a'] [(['A'], ['a'])] [] = none := by decide

theorem backtrace_zero (lat : List Node) (fuel : Nat) :
    backtrace lat fuel 0 = ([], []) := by
  cases fuel <;> rfl

theorem getD_mem_of_lt {α : Type} (l : List α) (i : Nat) (d0 : α)
    (h : i < l.length) : l.getD i d0 ∈ l := by
  rw [List.getD_eq_getElem?_getD, List.getElem?_eq_getElem h]
  simp only [Option.getD_some]
  exact List.getElem_mem h

theorem hitCandidate_shape {s : Str} {d : Table} {lat : List Node} {n m : Nat}
    {nd : Node} (h : hitCandidate s d lat n m = some nd) :
    lookup d (substr s (n - m) n) = some nd.sym ∧
    nd = ⟨symcost + (lat.getD (n - m) default).cost, n - m, nd.sym, true⟩ := by
  unfold hitCandidate at h
  rw [Option.map_eq_some'] at h
  obtain ⟨v, hv, hnd⟩ := h
  subst hnd
  exact ⟨hv, rfl⟩

theorem mem_candidates_of_nodeAt (s : Str) (d : Table) (lat : List Node)
    (n maxsym : Nat) :
    nodeAt s d lat n maxsym = initNode s lat n ∨
    ∃ m, 1 ≤ m ∧ m ≤ min n maxsym ∧
      hitCandidate s d lat n m = some (nodeAt s d lat n maxsym) := by
  obtain ⟨i, hi, hget, -, -⟩ := nodeAt_firstMinAt s d lat n maxsym
  unfold candidates at hi hget
  match i, hi, hget with
  | 0, hi, hget => exact Or.inl (by simpa using hget.symm)
  | i + 1, hi, hget =>
    right
    simp only [List.length_cons] at hi
    rw [List.getD_cons_succ] at hget
    have hilen : i < ((List.range' 1 (min n maxsym)).filterMap
        (hitCandidate s d lat n)).length := by omega
    have hmem := getD_mem_of_lt _ i default hilen
    rw [hget] at hmem
    obtain ⟨m, hmr, hmc⟩ := List.mem_filterMap.mp hmem
    rw [List.mem_range'] at hmr
    obtain ⟨j, hj, hjm⟩ := hmr
    exact ⟨m, by omega, by omega, hmc⟩

theorem cost_le_of_firstMinAt {l : List Node} {r x : Node}
    (h : FirstMinAt l r) (hx : x ∈ l) : r.cost ≤ x.cost := by
  obtain ⟨i, hi, hget, hmin, -⟩ := h
  obtain ⟨j, hj, hx⟩ := List.mem_iff_getElem.mp hx
  have := hmin j hj
  rw [List.getD_eq_getElem?_getD, List.getElem?_eq_getElem hj] at this
  simpa [hx] using this

theorem nodeAt_cost_le_initNode (s : Str) (d : Table) (lat : List Node)
    (n maxsym : Nat) :
    (nodeAt s d lat n maxsym).cost ≤ (initNode s lat n).cost :=
  cost_le_of_firstMinAt (nodeAt_firstMinAt s d lat n maxsym)
    (by unfold candidates; exact List.mem_cons_self _ _)

theorem nodeAt_cost_le_hitCandidate (s : Str) (d : Table) (lat : List Node)
    (n maxsym m : Nat) (cand : Node) (hm1 : 1 ≤ m) (hm2 : m ≤ min n maxsym)
    (hc : hitCandidate s d lat n m = some cand) :
    (nodeAt s d lat n maxsym).cost ≤ cand.cost := by
  apply cost_le_of_firstMinAt (nodeAt_firstMinAt s d lat n maxsym)
  unfold candidates
  apply List.mem_cons_of_mem
  apply List.mem_filterMap.mpr
  refine ⟨m, ?_, hc⟩
  rw [List.mem_range']
  exact ⟨m - 1, by omega, by omega⟩

theorem latticeUpTo_getD_zero (s : Str) (d : Table) (maxsym : Nat) :
    ∀ n, (latticeUpTo s d maxsym n).getD 0 default = ⟨0, 0, [], true⟩ := by
  intro n
  rw [latticeUpTo_getD_stable s d maxsym default 0 n 0 (by omega) (le_refl 0)]
  rfl

theorem latticeUpTo_latOk (s : Str) (d : Table) (maxsym : Nat) :
    ∀ n, n ≤ s.length → latOk s d (latticeUpTo s d maxsym n) := by
  intro n
  induction n with
  | zero =>
    intro _
    refine ⟨rfl, by rw [latticeUpTo_length]; omega, ?_⟩
    intro k hk1 hk2
    rw [latticeUpTo_length] at hk2
    omega
  | succ n ih =>
    intro hn1
    obtain ⟨ih0, ihlen, ihk⟩ := ih (by omega)
    have hst : ∀ j, j ≤ n →
        (latticeUpTo s d maxsym (n + 1)).getD j default =
          (latticeUpTo s d maxsym n).getD j default :=
      fun j hj => latticeUpTo_getD_stable s d maxsym default n (n + 1) j (by omega) hj
    refine ⟨latticeUpTo_getD_zero s d maxsym (n + 1),
      by rw [latticeUpTo_length]; omega, ?_⟩
    intro k hk1 hk2
    rw [latticeUpTo_length] at hk2
    rcases Nat.lt_or_ge k (n + 1) with hlt | hge
    · have hk' : k ≤ n := by omega
      rw [hst k hk']
      obtain ⟨hback, hhit, hmiss⟩ := ihk k hk1 (by rw [latticeUpTo_length]; omega)
      refine ⟨hback, ?_, ?_⟩
      · intro hh
        obtain ⟨hl, hc⟩ := hhit hh
        refine ⟨hl, ?_⟩
        rw [hst _ (by omega :
          ((latticeUpTo s d maxsym n).getD k default).back ≤ n)]
        exact hc
      · intro hh
        obtain ⟨hb, hs2, hc⟩ := hmiss hh
        exact ⟨hb, hs2, by rw [hst (k - 1) (by omega)]; exact hc⟩
    · have hkeq : k = n + 1 := by omega
      subst hkeq
      rw [latticeUpTo_getD_last]
      rcases mem_candidates_of_nodeAt s d (latticeUpTo s d maxsym n) (n + 1) maxsym
        with hini | ⟨m, hm1, hm2, hc⟩
      · rw [hini]
        unfold initNode
        refine ⟨by show n + 1 - 1 < n + 1; omega, ?_, ?_⟩
        · intro h
          simp at h
        · intro _
          refine ⟨rfl, rfl, ?_⟩
          show oovcost + ((latticeUpTo s d maxsym n).getD (n + 1 - 1) default).cost =
            oovcost + ((latticeUpTo s d maxsym (n + 1)).getD (n + 1 - 1) default).cost
          rw [hst (n + 1 - 1) (by omega)]
      · obtain ⟨hlk, hshape⟩ := hitCandidate_shape hc
        have hb : (nodeAt s d (latticeUpTo s d maxsym n) (n + 1) maxsym).back =
            n + 1 - m := by rw [hshape]
        have hcost : (nodeAt s d (latticeUpTo s d maxsym n) (n + 1) maxsym).cost =
            symcost + ((latticeUpTo s d maxsym n).getD (n + 1 - m) default).cost := by
          rw [hshape]
        have hh : (nodeAt s d (latticeUpTo s d maxsym n) (n + 1) maxsym).hit = true := by
          rw [hshape]
        refine ⟨by rw [hb]; omega, ?_, ?_⟩
        · intro _
          refine ⟨by rw [hb]; exact hlk, ?_⟩
          rw [hcost, hb, hst (n + 1 - m) (by omega)]
        · intro h
          rw [h] at hh
          cases hh

theorem getD_append_left' {α : Type} (l l' : List α) (i : Nat) (d0 : α)
    (h : i < l.length) : (l ++ l').getD i d0 = l.getD i d0 := by
  rw [List.getD_eq_getElem?_getD, List.getElem?_append_left h,
    ← List.getD_eq_getElem?_getD]

theorem getD_append_last' {α : Type} (l : List α) (x : α) (d0 : α) :
    (l ++ [x]).getD l.length d0 = x := by
  rw [List.getD_eq_getElem?_getD, List.getElem?_append_right (le_refl _)]
  simp

theorem take_append_substr (s : Str) (a b : Nat) (hab : a ≤ b) :
    s.take a ++ substr s a b = s.take b := by
  unfold substr
  rw [List.take_drop, show a + (b - a) = b from by omega]
  have h1 : s.take a = (s.take b).take a := by
    rw [List.take_take, show min a b = a from by omega]
  rw [h1, List.take_append_drop]

theorem substr_ne_nil (s : Str) (a b : Nat) (ha : a < b) (hb : b ≤ s.length) :
    substr s a b ≠ [] := by
  unfold substr
  intro h
  have hlen := congrArg List.length h
  simp [List.length_take, List.length_drop] at hlen
  omega

theorem substr_singleton_length (s : Str) (k : Nat) (h : k < s.length) :
    (substr s k (k + 1)).length = 1 := by
  unfold substr
  simp [List.length_take, List.length_drop]
  omega

theorem flagsCost_append_single (tf : List Bool) (b : Bool) :
    flagsCost (tf ++ [b]) = flagsCost tf + (if b then symcost else oovcost) := by
  simp [flagsCost]

theorem piecesOk_append (d : Table) (segs tl : List Str) (ttf : List Bool)
    (hlen1 : segs.length = tl.length) (hlen2 : ttf.length = tl.length)
    (h : PiecesOk d segs tl ttf) (seg sym : Str) (flag : Bool)
    (hlast : (flag = true → lookup d seg = some sym ∧ seg ≠ []) ∧
      (flag = false → sym = seg ∧ seg.length = 1)) :
    PiecesOk d (segs ++ [seg]) (tl ++ [sym]) (ttf ++ [flag]) := by
  intro i hi
  rw [List.length_append, List.length_cons, List.length_nil] at hi
  rcases Nat.lt_or_ge i tl.length with hlt | hge
  · rw [getD_append_left' segs [seg] i [] (by omega),
      getD_append_left' tl [sym] i [] (by omega),
      getD_append_left' ttf [flag] i false (by omega)]
    exact h i hlt
  · have hieq : i = tl.length := by omega
    subst hieq
    rw [show tl.length = segs.length from hlen1.symm,
      getD_append_last' segs seg []]
    rw [show segs.length = tl.length from hlen1, getD_append_last' tl sym []]
    rw [show tl.length = ttf.length from hlen2.symm,
      getD_append_last' ttf flag false]
    exact hlast

theorem backtrace_ok (s : Str) (d : Table) (lat : List Node)
    (hlat : latOk s d lat) :
    ∀ n, ∀ fuel, n ≤ fuel → n < lat.length →
      ∃ segs : List Str,
        (backtrace lat fuel n).1.length = (backtrace lat fuel n).2.length ∧
        segs.length = (backtrace lat fuel n).1.length ∧
        segs.flatten = s.take n ∧
        PiecesOk d segs (backtrace lat fuel n).1 (backtrace lat fuel n).2 ∧
        flagsCost (backtrace lat fuel n).2 = (lat.getD n default).cost := by
  intro n
  induction n using Nat.strong_induction_on with
  | _ n ih =>
    match n with
    | 0 =>
      intro fuel hf hn
      rw [backtrace_zero]
      refine ⟨[], rfl, rfl, rfl, ?_, ?_⟩
      · intro i hi
        simp at hi
      · show flagsCost [] = (lat.getD 0 default).cost
        rw [hlat.1]
        rfl
    | n + 1 =>
      intro fuel hf hn
      match fuel, hf with
      | f + 1, hf =>
        obtain ⟨h0, hlen, hk⟩ := hlat
        obtain ⟨hback, hhit, hmiss⟩ := hk (n + 1) (by omega) hn
        have hn1s : n + 1 ≤ s.length := by omega
        obtain ⟨segs, ih1, ih2, ih3, ih4, ih5⟩ :=
          ih (lat.getD (n + 1) default).back hback f (by omega) (by omega)
        rw [backtrace_succ]
        dsimp only
        refine ⟨segs ++ [substr s (lat.getD (n + 1) default).back (n + 1)],
          ?_, ?_, ?_, ?_, ?_⟩
        · simp only [List.length_append]
          rw [ih1]
          rfl
        · simp only [List.length_append]
          rw [ih2]
          rfl
        · rw [List.flatten_append, ih3]
          simp only [List.flatten_cons, List.flatten_nil, List.append_nil]
          exact take_append_substr s _ (n + 1) (by omega)
        · refine piecesOk_append d segs _ _ ih2 ih1.symm ih4 _ _ _ ⟨?_, ?_⟩
          · intro hh
            obtain ⟨hl, -⟩ := hhit hh
            exact ⟨hl, substr_ne_nil s _ (n + 1) hback hn1s⟩
          · intro hh
            obtain ⟨hb, hs2, -⟩ := hmiss hh
            constructor
            · rw [hs2, hb]
            · rw [hb]
              exact substr_singleton_length s n (by omega)
        · rw [flagsCost_append_single, ih5]
          cases hh : (lat.getD (n + 1) default).hit with
          | false =>
            obtain ⟨hb2, -, hc2⟩ := hmiss hh
            rw [if_neg (by simp), hc2, hb2]
            omega
          | true =>
            obtain ⟨-, hc2⟩ := hhit hh
            rw [if_pos rfl, hc2]
            omega

/-- C1: whenever `translate_string(s, d)` returns a pair `(tl, ttf)`, the two
sequences have equal length and there is a segmentation of `s` into consumed
substrings `segs`, one per emitted symbol, whose concatenation in order
reconstructs `s` exactly; each `tl[i]` with `ttf[i] = True` is the table value
`d[k]` of a key `k` exactly matching the consumed substring, and each `tl[i]`
with `ttf[i] = False` is the consumed substring itself, a single original
character of `s` (so the miss characters, in order, are exactly the
untranslated portions of `s`); the empty input yields empty sequences. -/
theorem translate_string_segmentation (s : Str) (d : Table) (tl : List Str)
    (ttf : List Bool) (h : translate_string s d = some (tl, ttf)) :
    tl.length = ttf.length ∧
    (∃ segs : List Str, segs.length = tl.length ∧ segs.flatten = s ∧
      PiecesOk d segs tl ttf) ∧
    (s = [] → tl = [] ∧ ttf = []) := by
  unfold translate_string at h
  cases hmax : maxsymOpt d with
  | none => rw [hmax] at h; cases h
  | some maxsym =>
    rw [hmax] at h
    dsimp only at h
    have hpair : backtrace (latticeUpTo s d maxsym s.length) s.length s.length =
        (tl, ttf) := Option.some.inj h
    have hlat := latticeUpTo_latOk s d maxsym s.length (le_refl _)
    obtain ⟨segs, b1, b2, b3, b4, b5⟩ :=
      backtrace_ok s d _ hlat s.length s.length (le_refl _)
        (by rw [latticeUpTo_length]; omega)
    simp only [hpair] at b1 b2 b4
    refine ⟨b1, ⟨segs, b2, ?_, b4⟩, ?_⟩
    · rw [List.take_length] at b3
      exact b3
    · intro hs
      subst hs
      simp only [List.length_nil] at hpair
      rw [backtrace_zero] at hpair
      injection hpair with h1 h2
      exact ⟨h1.symm, h2.symm⟩

theorem translate_string_segmentation_witness :
    translate_string ['a', 'b'] [(['a', 'b'], ['X'])] = some ([['X']], [true]) ∧
    (([['X']] : List Str).length = ([true] : List Bool).length ∧
      (∃ segs : List Str, segs.length = ([['X']] : List Str).length ∧
        segs.flatten = ['a', 'b'] ∧
        PiecesOk [(['a', 'b'], ['X'])] segs [['X']] [true]) ∧
      ((['a', 'b'] : Str) = [] → ([['X']] : List Str) = [] ∧ ([true] : List Bool) = [])) :=
  ⟨by decide,
    translate_string_segmentation ['a', 'b'] [(['a', 'b'], ['X'])] [['X']] [true]
      (by decide)⟩

theorem foldl_max_init_le (l : List Nat) : ∀ b, b ≤ l.foldl max b := by
  induction l with
  | nil => intro b; exact le_refl b
  | cons x l ih =>
    intro b
    rw [List.foldl_cons]
    exact le_trans (Nat.le_max_left b x) (ih (max b x))

theorem le_foldl_max (l : List Nat) : ∀ b a, a ∈ l → a ≤ l.foldl max b := by
  induction l with
  | nil => intro b a h; cases h
  | cons x l ih =>
    intro b a h
    rw [List.foldl_cons]
    rcases List.mem_cons.mp h with rfl | hmem
    · exact le_trans (Nat.le_max_right b a) (foldl_max_init_le l (max b a))
    · exact ih (max b x) a hmem

theorem lookup_some_mem {d : Table} {k v : Str} (h : lookup d k = some v) :
    ∃ kv, kv ∈ d ∧ kv.1 = k ∧ kv.2 = v := by
  unfold lookup at h
  cases hf : d.find? (fun kv => kv.1 == k) with
  | none => rw [hf] at h; cases h
  | some kv =>
    rw [hf] at h
    simp only [Option.map_some', Option.some.injEq] at h
    have hbeq := List.find?_some hf
    have hkeq : kv.1 = k := by simpa using hbeq
    exact ⟨kv, List.mem_of_find?_eq_some hf, hkeq, h⟩

theorem key_length_le_maxsym {d : Table} {maxsym : Nat}
    (hmax : maxsymOpt d = some maxsym) {k v : Str} (h : lookup d k = some v) :
    k.length ≤ maxsym := by
  obtain ⟨kv, hkv, hk1, -⟩ := lookup_some_mem h
  cases d with
  | nil => cases hkv
  | cons a l =>
    have hm : maxsym = (((a :: l).map (fun kv => kv.1.length)).foldl max 0) := by
      simpa [maxsymOpt] using hmax.symm
    rw [hm, ← hk1]
    exact le_foldl_max _ 0 kv.1.length (List.mem_map_of_mem _ hkv)

theorem lattice_getD_eq_nodeAt (s : Str) (d : Table) (maxsym N n : Nat)
    (h1 : 1 ≤ n) (hN : n ≤ N) :
    (latticeUpTo s d maxsym N).getD n default =
      nodeAt s d (latticeUpTo s d maxsym (n - 1)) n maxsym := by
  match n, h1 with
  | n + 1, _ =>
    rw [latticeUpTo_getD_stable s d maxsym default (n + 1) N (n + 1) hN (le_refl _),
      latticeUpTo_getD_last]
    rfl

theorem lattice_cost_le_piecesCost (s : Str) (d : Table) (maxsym : Nat)
    (hmax : maxsymOpt d = some maxsym) :
    ∀ ps : List (Str × Bool), ∀ n, n ≤ s.length →
      (ps.map Prod.fst).flatten = s.take n →
      (∀ pb ∈ ps, pieceOk d pb) →
      ((latticeUpTo s d maxsym s.length).getD n default).cost ≤ piecesCost ps := by
  intro ps
  induction ps using List.reverseRecOn with
  | nil =>
    intro n hn hflat hok
    have h := hflat.symm
    simp only [List.map_nil, List.flatten_nil] at h
    rw [List.take_eq_nil_iff] at h
    have hn0 : n = 0 := by
      rcases h with h | h
      · exact h
      · rw [h] at hn
        simpa using hn
    subst hn0
    rw [latticeUpTo_getD_zero]
    exact Nat.zero_le _
  | append_singleton ps last ih =>
    intro n hn hflat hok
    have hflat' : (ps.map Prod.fst).flatten ++ last.1 = s.take n := by
      simpa using hflat
    have hok_last : pieceOk d last :=
      hok last (List.mem_append_right _ (List.mem_singleton.mpr rfl))
    have hm1 : 1 ≤ last.1.length := by
      unfold pieceOk at hok_last
      by_cases hl2 : last.2 = true
      · rw [if_pos hl2] at hok_last
        have := List.length_pos.mpr hok_last.2
        omega
      · rw [if_neg hl2] at hok_last
        omega
    have hlenflat : ((ps.map Prod.fst).flatten).length + last.1.length = n := by
      have h2 := congrArg List.length hflat'
      rw [List.length_append, List.length_take] at h2
      omega
    have hmn : last.1.length ≤ n := by omega
    have hps : (ps.map Prod.fst).flatten = s.take (n - last.1.length) := by
      have h3 : (ps.map Prod.fst).flatten =
          ((ps.map Prod.fst).flatten ++ last.1).take
            ((ps.map Prod.fst).flatten).length := (List.take_left _ _).symm
      rw [hflat'] at h3
      rw [h3, List.take_take]
      congr 1
      omega
    have hlast1 : last.1 = substr s (n - last.1.length) n := by
      have h4 : last.1 =
          ((ps.map Prod.fst).flatten ++ last.1).drop
            ((ps.map Prod.fst).flatten).length := (List.drop_left _ _).symm
      rw [hflat'] at h4
      have h5 : (s.take n).drop (((ps.map Prod.fst).flatten).length) =
          substr s (n - last.1.length) n := by
        rw [show ((ps.map Prod.fst).flatten).length = n - last.1.length from
          by omega]
        unfold substr
        rw [List.take_drop,
          show (n - last.1.length) + (n - (n - last.1.length)) = n from by omega]
      exact h4.trans h5
    have hok' : ∀ pb ∈ ps, pieceOk d pb :=
      fun pb hpb => hok pb (List.mem_append_left _ hpb)
    have ihc := ih (n - last.1.length) (by omega) hps hok'
    have hsplit : piecesCost (ps ++ [last]) =
        piecesCost ps + (if last.2 then symcost else oovcost) := by
      simp [piecesCost]
    rw [hsplit]
    have hn1 : 1 ≤ n := by omega
    rw [lattice_getD_eq_nodeAt s d maxsym s.length n hn1 hn]
    by_cases hl2 : last.2 = true
    · unfold pieceOk at hok_last
      rw [if_pos hl2] at hok_last
      obtain ⟨hsome, hne⟩ := hok_last
      obtain ⟨v, hv⟩ := Option.isSome_iff_exists.mp hsome
      have hmmax : last.1.length ≤ maxsym := key_length_le_maxsym hmax hv
      have hvsub : lookup d (substr s (n - last.1.length) n) = some v :=
        hlast1 ▸ hv
      have hcand : hitCandidate s d (latticeUpTo s d maxsym (n - 1)) n
          last.1.length = some ⟨symcost +
            ((latticeUpTo s d maxsym (n - 1)).getD (n - last.1.length)
              default).cost, n - last.1.length, v, true⟩ := by
        unfold hitCandidate
        rw [hvsub]
        rfl
      have hle := nodeAt_cost_le_hitCandidate s d (latticeUpTo s d maxsym (n - 1))
        n maxsym last.1.length _ hm1 (by omega) hcand
      refine le_trans hle ?_
      show symcost + ((latticeUpTo s d maxsym (n - 1)).getD (n - last.1.length)
        default).cost ≤ _
      rw [← latticeUpTo_getD_stable s d maxsym default (n - 1) s.length
        (n - last.1.length) (by omega) (by omega), if_pos hl2]
      omega
    · unfold pieceOk at hok_last
      rw [if_neg hl2] at hok_last
      have hle := nodeAt_cost_le_initNode s d (latticeUpTo s d maxsym (n - 1))
        n maxsym
      refine le_trans hle ?_
      show oovcost + ((latticeUpTo s d maxsym (n - 1)).getD (n - 1)
        default).cost ≤ _
      rw [← latticeUpTo_getD_stable s d maxsym default (n - 1) s.length (n - 1)
        (by omega) (le_refl _), if_neg hl2]
      have hnm : n - last.1.length = n - 1 := by omega
      rw [hnm] at ihc
      omega

theorem getD_eq_get {α : Type} (l : List α) (i : Nat) (d0 : α)
    (h : i < l.length) : l.getD i d0 = l.get ⟨i, h⟩ := by
  rw [List.getD_eq_getElem?_getD, List.getElem?_eq_getElem h]
  simp

theorem decompCost_of_pieces (d : Table) (segs tl : List Str) (ttf : List Bool)
    (hlen1 : tl.length = ttf.length) (hlen2 : segs.length = tl.length)
    (hok : PiecesOk d segs tl ttf) (cs : Str) (hflat : segs.flatten = cs) :
    DecompCost d cs (flagsCost ttf) := by
  refine ⟨segs.zip ttf, ?_, ?_, ?_⟩
  · rw [List.map_fst_zip segs ttf (by omega)]
    exact hflat
  · intro pb hpb
    obtain ⟨j, hj, hpb⟩ := List.mem_iff_getElem.mp hpb
    rw [List.getElem_zip] at hpb
    have hjt : j < tl.length := by
      rw [List.length_zip] at hj
      omega
    obtain ⟨hhit, hmiss⟩ := hok j hjt
    have hes : segs.getD j [] = segs.get ⟨j, by omega⟩ :=
      getD_eq_get segs j [] (by omega)
    have het : ttf.getD j false = ttf.get ⟨j, by omega⟩ :=
      getD_eq_get ttf j false (by omega)
    unfold pieceOk
    rw [← hpb]
    dsimp only
    cases hb : ttf.get ⟨j, by omega⟩ with
    | true =>
      rw [if_pos (by rw [List.get_eq_getElem] at hb; exact hb)]
      obtain ⟨hl, hne⟩ := hhit (by rw [het, hb])
      rw [hes, List.get_eq_getElem] at hl hne
      exact ⟨by rw [hl]; rfl, hne⟩
    | false =>
      rw [if_neg (by rw [List.get_eq_getElem] at hb; simp [hb])]
      obtain ⟨-, hl1⟩ := hmiss (by rw [het, hb])
      rw [hes, List.get_eq_getElem] at hl1
      exact hl1
  · unfold piecesCost flagsCost
    congr 1
    rw [show (fun pb : Str × Bool => if pb.2 then symcost else oovcost) =
      ((fun b => if b then symcost else oovcost) ∘ Prod.snd) from rfl]
    rw [← List.map_map, List.map_snd_zip segs ttf (by omega)]

/-- C2: the decomposition returned by `translate_string` minimizes the total
path cost, where each table-hit symbol costs `symcost = 1` and each
untranslatable single character costs `oovcost = 10`: its hit-flag cost is
achieved by a legal decomposition of `s` and is below every legal
decomposition's cost.  Equivalently, for each prefix length `n` the lattice
entry `n` records the true minimum cost over all decompositions of the first
`n` characters.  In particular, for table `{ab: X}` and input `ab`, the result
is `([X], [True])` (cost 1), not two misses (cost 20). -/
theorem translate_string_min_cost (s : Str) (d : Table) (tl : List Str)
    (ttf : List Bool) (h : translate_string s d = some (tl, ttf)) :
    (DecompCost d s (flagsCost ttf) ∧
      ∀ c, DecompCost d s c → flagsCost ttf ≤ c) ∧
    (∀ maxsym, maxsymOpt d = some maxsym → ∀ n, n ≤ s.length →
      IsLeast {c | DecompCost d (s.take n) c}
        (((latticeUpTo s d maxsym s.length).getD n default).cost)) ∧
    translate_string ['a', 'b'] [(['a', 'b'], ['X'])] = some ([['X']], [true]) := by
  have hQ : ∀ maxsym, maxsymOpt d = some maxsym → ∀ n, n ≤ s.length →
      IsLeast {c | DecompCost d (s.take n) c}
        (((latticeUpTo s d maxsym s.length).getD n default).cost) := by
    intro maxsym hmax n hn
    have hlat := latticeUpTo_latOk s d maxsym s.length (le_refl _)
    obtain ⟨segs, b1, b2, b3, b4, b5⟩ :=
      backtrace_ok s d _ hlat n s.length hn (by rw [latticeUpTo_length]; omega)
    constructor
    · rw [Set.mem_setOf_eq, ← b5]
      exact decompCost_of_pieces d segs _ _ b1 b2 b4 (s.take n) b3
    · intro c hc
      obtain ⟨ps, hc1, hc2, hc3⟩ := hc
      rw [hc3]
      exact lattice_cost_le_piecesCost s d maxsym hmax ps n hn hc1 hc2
  have hmaxs := h
  unfold translate_string at hmaxs
  cases hmax : maxsymOpt d with
  | none => rw [hmax] at hmaxs; cases hmaxs
  | some maxsym =>
    rw [hmax] at hmaxs
    dsimp only at hmaxs
    have hpair : backtrace (latticeUpTo s d maxsym s.length) s.length s.length =
        (tl, ttf) := Option.some.inj hmaxs
    have hIs := hQ maxsym hmax s.length (le_refl _)
    have hcostN : flagsCost ttf =
        ((latticeUpTo s d maxsym s.length).getD s.length default).cost := by
      have hlat := latticeUpTo_latOk s d maxsym s.length (le_refl _)
      obtain ⟨segs, b1, b2, b3, b4, b5⟩ :=
        backtrace_ok s d _ hlat s.length s.length (le_refl _)
          (by rw [latticeUpTo_length]; omega)
      rw [hpair] at b5
      exact b5
    refine ⟨⟨?_, ?_⟩, ?_, by decide⟩
    · have hmem := hIs.1
      rw [Set.mem_setOf_eq, List.take_length] at hmem
      rw [hcostN]
      exact hmem
    · intro c hc
      have hlb := hIs.2
      rw [hcostN]
      apply hlb
      rw [Set.mem_setOf_eq, List.take_length]
      exact hc
    · intro M hM n hn
      have hMe : maxsym = M := Option.some.inj hM
      subst hMe
      exact hQ maxsym hmax n hn

theorem translate_string_min_cost_witness :
    translate_string ['a', 'b'] [(['a', 'b'], ['X'])] = some ([['X']], [true]) ∧
    ((DecompCost [(['a', 'b'], ['X'])] ['a', 'b'] (flagsCost [true]) ∧
      ∀ c, DecompCost [(['a', 'b'], ['X'])] ['a', 'b'] c → flagsCost [true] ≤ c) ∧
    (∀ maxsym, maxsymOpt [(['a', 'b'], ['X'])] = some maxsym →
      ∀ n, n ≤ (['a', 'b'] : Str).length →
      IsLeast {c | DecompCost [(['a', 'b'], ['X'])] ((['a', 'b'] : Str).take n) c}
        (((latticeUpTo ['a', 'b'] [(['a', 'b'], ['X'])] maxsym
          (['a', 'b'] : Str).length).getD n default).cost)) ∧
    translate_string ['a', 'b'] [(['a', 'b'], ['X'])] = some ([['X']], [true])) :=
  ⟨by decide,
    translate_string_min_cost ['a', 'b'] [(['a', 'b'], ['X'])] [['X']] [true]
      (by decide)⟩

theorem attachLoop_zero (tones vowels : List Str) (searchstep catdir : Int)
    (ol : List Str) (v t : Int) :
    attachLoop tones vowels searchstep catdir 0 ol v t =
      if 0 ≤ v ∧ v < (ol.length : Int) then none else some ol := rfl

theorem attachLoop_succ (tones vowels : List Str) (searchstep catdir : Int)
    (fuel : Nat) (ol : List Str) (v t : Int) :
    attachLoop tones vowels searchstep catdir (fuel + 1) ol v t =
      attachBody tones vowels searchstep catdir
        (attachLoop tones vowels searchstep catdir fuel) ol v t := rfl

theorem attachLoop_halt (tones vowels : List Str) (searchstep catdir : Int)
    (ol : List Str) (v t : Int) (h : ¬(0 ≤ v ∧ v < (ol.length : Int))) :
    ∀ fuel, attachLoop tones vowels searchstep catdir fuel ol v t = some ol := by
  intro fuel
  cases fuel with
  | zero => rw [attachLoop_zero, if_neg h]
  | succ f =>
    rw [attachLoop_succ]
    unfold attachBody
    rw [if_neg h]

theorem attachBody_guard (tones vowels : List Str) (searchstep catdir : Int)
    (go : List Str → Int → Int → Option (List Str)) (ol : List Str) (v t : Int)
    (hg : 0 ≤ v ∧ v < (ol.length : Int)) :
    attachBody tones vowels searchstep catdir go ol v t =
      go (attachP vowels catdir ol v t).1 (v + searchstep)
        (attachT2 tones (attachP vowels catdir ol v t).1 v.toNat v
          (attachP vowels catdir ol v t).2) := by
  unfold attachBody
  rw [if_pos hg]

theorem attachP_merge (vowels : List Str) (catdir : Int) (ol : List Str) (v t : Int)
    (hc : (vowelTest vowels (ol.getD v.toNat []) && decide (0 ≤ t)) = true) :
    attachP vowels catdir ol v t =
      (((ol.set v.toNat
          (if 0 ≤ catdir then ol.getD v.toNat [] ++ ol.getD t.toNat []
            else ol.getD t.toNat [] ++ ol.getD v.toNat [])).take t.toNat) ++
        ((ol.set v.toNat
          (if 0 ≤ catdir then ol.getD v.toNat [] ++ ol.getD t.toNat []
            else ol.getD t.toNat [] ++ ol.getD v.toNat [])).drop (t.toNat + 1)),
        (-1 : Int)) := by
  unfold attachP
  rw [if_pos hc]

theorem attachP_nomerge (vowels : List Str) (catdir : Int) (ol : List Str)
    (v t : Int)
    (hc : ¬((vowelTest vowels (ol.getD v.toNat []) && decide (0 ≤ t)) = true)) :
    attachP vowels catdir ol v t = (ol, t) := by
  unfold attachP
  rw [if_neg hc]

theorem attachP_length_le (vowels : List Str) (catdir : Int) (ol : List Str)
    (v t : Int) : (attachP vowels catdir ol v t).1.length ≤ ol.length := by
  by_cases hc : (vowelTest vowels (ol.getD v.toNat []) && decide (0 ≤ t)) = true
  · rw [attachP_merge vowels catdir ol v t hc]
    simp [List.length_take, List.length_drop]
    omega
  · rw [attachP_nomerge vowels catdir ol v t hc]

theorem attachT2_cases (tones : List Str) (p1 : List Str) (vn : Nat) (v t2' : Int) :
    attachT2 tones p1 vn v t2' = v ∧ v < (p1.length : Int) ∨
      attachT2 tones p1 vn v t2' = t2' := by
  unfold attachT2
  by_cases hc : (decide (v < (p1.length : Int)) && decide ((p1.getD vn []) ∈ tones)) = true
  · rw [if_pos hc]
    simp only [Bool.and_eq_true, decide_eq_true_eq] at hc
    exact Or.inl ⟨rfl, hc.1⟩
  · rw [if_neg hc]
    exact Or.inr rfl

theorem attachLoop_isSome_forward (tones vowels : List Str) (catdir : Int) :
    ∀ (fuel : Nat) (ol : List Str) (v t : Int), 0 ≤ v →
      (ol.length : Int) < v + (fuel : Int) →
      (attachLoop tones vowels 1 catdir fuel ol v t).isSome := by
  intro fuel
  induction fuel with
  | zero =>
    intro ol v t hv hlen
    rw [attachLoop_zero, if_neg (by omega)]
    rfl
  | succ fuel ih =>
    intro ol v t hv hlen
    rw [attachLoop_succ]
    by_cases hg : 0 ≤ v ∧ v < (ol.length : Int)
    · rw [attachBody_guard tones vowels 1 catdir _ ol v t hg]
      apply ih
      · omega
      · have := attachP_length_le vowels catdir ol v t
        omega
    · unfold attachBody
      rw [if_neg hg]
      rfl

theorem attachLoop_isSome_backward (tones vowels : List Str) (catdir : Int) :
    ∀ (fuel : Nat) (ol : List Str) (v t : Int), v < (fuel : Int) →
      (attachLoop tones vowels (-1) catdir fuel ol v t).isSome := by
  intro fuel
  induction fuel with
  | zero =>
    intro ol v t hv
    rw [attachLoop_zero, if_neg (by omega)]
    rfl
  | succ fuel ih =>
    intro ol v t hv
    rw [attachLoop_succ]
    by_cases hg : 0 ≤ v ∧ v < (ol.length : Int)
    · rw [attachBody_guard tones vowels (-1) catdir _ ol v t hg]
      apply ih
      push_cast at hv ⊢
      omega
    · unfold attachBody
      rw [if_neg hg]
      rfl

theorem perm_get_cons_eraseIdx (l : List Str) :
    ∀ (i : Nat) (h : i < l.length),
      List.Perm (l.get ⟨i, h⟩ :: l.eraseIdx i) l := by
  induction l with
  | nil => intro i h; simp at h
  | cons a tl ih =>
    intro i h
    cases i with
    | zero => simp
    | succ i =>
      have hi : i < tl.length := by simpa using h
      have hperm := ih i hi
      have hswap : List.Perm (tl.get ⟨i, hi⟩ :: a :: tl.eraseIdx i)
          (a :: tl.get ⟨i, hi⟩ :: tl.eraseIdx i) :=
        List.Perm.swap a (tl.get ⟨i, hi⟩) (tl.eraseIdx i)
      show List.Perm (tl.get ⟨i, hi⟩ :: a :: tl.eraseIdx i) (a :: tl)
      exact hswap.trans (hperm.cons a)

theorem eraseIdx_set_same (l : List Str) (i : Nat) (x : Str) :
    (l.set i x).eraseIdx i = l.eraseIdx i := by
  rw [List.eraseIdx_eq_take_drop_succ, List.eraseIdx_eq_take_drop_succ]
  congr 1
  · rw [List.set_take, List.set_eq_of_length_le]
    rw [List.length_take]
    omega
  · rw [List.drop_set, if_pos (by omega)]

theorem flatten_step_perm (ol : List Str) (vn tn : Nat) (hv : vn < ol.length)
    (ht : tn < ol.length) (hne : tn ≠ vn) (merged : Str)
    (hm : List.Perm merged (ol.get ⟨vn, hv⟩ ++ ol.get ⟨tn, ht⟩)) :
    List.Perm
      (((ol.set vn merged).take tn) ++ ((ol.set vn merged).drop (tn + 1))).flatten
      ol.flatten := by
  rw [← List.eraseIdx_eq_take_drop_succ]
  have hlen : (ol.set vn merged).length = ol.length := by simp
  have h1 : List.Perm
      ((ol.set vn merged).get ⟨tn, by omega⟩ :: (ol.set vn merged).eraseIdx tn)
      (ol.set vn merged) := perm_get_cons_eraseIdx (ol.set vn merged) tn (by omega)
  have hget_tn : (ol.set vn merged).get ⟨tn, by omega⟩ = ol.get ⟨tn, ht⟩ := by
    rw [List.get_eq_getElem, List.get_eq_getElem]
    exact List.getElem_set_ne (fun he => hne he.symm) _
  have h2 : List.Perm
      ((ol.set vn merged).get ⟨vn, by omega⟩ :: (ol.set vn merged).eraseIdx vn)
      (ol.set vn merged) := perm_get_cons_eraseIdx (ol.set vn merged) vn (by omega)
  have hget_vn : (ol.set vn merged).get ⟨vn, by omega⟩ = merged := by
    rw [List.get_eq_getElem]
    exact List.getElem_set_self _
  have h3 : (ol.set vn merged).eraseIdx vn = ol.eraseIdx vn :=
    eraseIdx_set_same ol vn merged
  have h4 : List.Perm (ol.get ⟨vn, hv⟩ :: ol.eraseIdx vn) ol :=
    perm_get_cons_eraseIdx ol vn hv
  have f1 : List.Perm
      (ol.get ⟨tn, ht⟩ :: (ol.set vn merged).eraseIdx tn).flatten
      (ol.set vn merged).flatten := by
    rw [← hget_tn]
    exact List.Perm.flatten h1
  have f2 : List.Perm (ol.set vn merged).flatten
      (merged :: ol.eraseIdx vn).flatten := by
    have h2' := List.Perm.flatten h2
    rw [hget_vn, h3] at h2'
    exact h2'.symm
  have f4 : List.Perm (ol.get ⟨vn, hv⟩ :: ol.eraseIdx vn).flatten ol.flatten :=
    List.Perm.flatten h4
  rw [List.flatten_cons] at f1 f2 f4
  have f5 : List.Perm (ol.set vn merged).flatten
      ((ol.get ⟨vn, hv⟩ ++ ol.get ⟨tn, ht⟩) ++ (ol.eraseIdx vn).flatten) :=
    f2.trans (hm.append_right _)
  have f6 : List.Perm
      ((ol.get ⟨vn, hv⟩ ++ ol.get ⟨tn, ht⟩) ++ (ol.eraseIdx vn).flatten)
      (ol.get ⟨tn, ht⟩ ++ (ol.get ⟨vn, hv⟩ ++ (ol.eraseIdx vn).flatten)) := by
    have hcomm : List.Perm
        ((ol.get ⟨vn, hv⟩ ++ ol.get ⟨tn, ht⟩) ++ (ol.eraseIdx vn).flatten)
        ((ol.get ⟨tn, ht⟩ ++ ol.get ⟨vn, hv⟩) ++ (ol.eraseIdx vn).flatten) :=
      List.perm_append_comm.append_right _
    rw [List.append_assoc (ol.get ⟨tn, ht⟩) (ol.get ⟨vn, hv⟩)
      (ol.eraseIdx vn).flatten] at hcomm
    exact hcomm
  have f7 : List.Perm
      (ol.get ⟨tn, ht⟩ ++ ((ol.set vn merged).eraseIdx tn).flatten)
      (ol.get ⟨tn, ht⟩ ++ (ol.get ⟨vn, hv⟩ ++ (ol.eraseIdx vn).flatten)) :=
    f1.trans (f5.trans f6)
  have f8 : List.Perm ((ol.set vn merged).eraseIdx tn).flatten
      (ol.get ⟨vn, hv⟩ ++ (ol.eraseIdx vn).flatten) :=
    (List.perm_append_left_iff _).mp f7
  exact f8.trans f4

theorem attachP_flatten_perm (vowels : List Str) (catdir : Int) (ol : List Str)
    (v t : Int) (hg : 0 ≤ v ∧ v < (ol.length : Int))
    (ht : t = -1 ∨ (0 ≤ t ∧ t < (ol.length : Int) ∧ t ≠ v)) :
    List.Perm (attachP vowels catdir ol v t).1.flatten ol.flatten := by
  by_cases hc : (vowelTest vowels (ol.getD v.toNat []) && decide (0 ≤ t)) = true
  · rw [attachP_merge vowels catdir ol v t hc]
    have hc' := hc
    simp only [Bool.and_eq_true, decide_eq_true_eq] at hc'
    have ht0 : 0 ≤ t := hc'.2
    rcases ht with h | ⟨h1, h2, h3⟩
    · omega
    · have hvlt : v.toNat < ol.length := by omega
      have htlt : t.toNat < ol.length := by omega
      have hne : t.toNat ≠ v.toNat := by omega
      apply flatten_step_perm ol v.toNat t.toNat hvlt htlt hne
      have hgv : ol.getD v.toNat [] = ol.get ⟨v.toNat, hvlt⟩ :=
        getD_eq_get _ _ _ hvlt
      have hgt : ol.getD t.toNat [] = ol.get ⟨t.toNat, htlt⟩ :=
        getD_eq_get _ _ _ htlt
      by_cases hcat : (0 : Int) ≤ catdir
      · rw [if_pos hcat, hgv, hgt]
      · rw [if_neg hcat, hgv, hgt]
        exact List.perm_append_comm
  · rw [attachP_nomerge vowels catdir ol v t hc]

theorem attachLoop_flatten_perm (tones vowels : List Str)
    (searchstep catdir : Int) (hstep : searchstep = 1 ∨ searchstep = -1) :
    ∀ (fuel : Nat) (ol : List Str) (v t : Int) (res : List Str),
      (t = -1 ∨ (0 ≤ t ∧ t < (ol.length : Int) ∧
        ((0 < searchstep ∧ t < v) ∨ (searchstep < 0 ∧ v < t)))) →
      attachLoop tones vowels searchstep catdir fuel ol v t = some res →
      List.Perm res.flatten ol.flatten := by
  intro fuel
  induction fuel with
  | zero =>
    intro ol v t res hinv h
    rw [attachLoop_zero] at h
    by_cases hg : 0 ≤ v ∧ v < (ol.length : Int)
    · rw [if_pos hg] at h; cases h
    · rw [if_neg hg] at h
      rw [← Option.some.inj h]
  | succ fuel ih =>
    intro ol v t res hinv h
    rw [attachLoop_succ] at h
    by_cases hg : 0 ≤ v ∧ v < (ol.length : Int)
    · rw [attachBody_guard tones vowels searchstep catdir _ ol v t hg] at h
      have hstepperm : List.Perm (attachP vowels catdir ol v t).1.flatten
          ol.flatten := by
        apply attachP_flatten_perm vowels catdir ol v t hg
        rcases hinv with h1 | ⟨h1, h2, h3⟩
        · exact Or.inl h1
        · refine Or.inr ⟨h1, h2, ?_⟩
          rcases h3 with ⟨-, hlt⟩ | ⟨-, hlt⟩ <;> omega
      rcases attachT2_cases tones (attachP vowels catdir ol v t).1 v.toNat v
          (attachP vowels catdir ol v t).2 with ⟨he, hvlen⟩ | he
      · rw [he] at h
        have hinvN : (v = -1 ∨ (0 ≤ v ∧
            v < ((attachP vowels catdir ol v t).1.length : Int) ∧
            ((0 < searchstep ∧ v < v + searchstep) ∨
              (searchstep < 0 ∧ v + searchstep < v)))) := by
          right
          refine ⟨hg.1, hvlen, ?_⟩
          rcases hstep with rfl | rfl
          · exact Or.inl ⟨by norm_num, by omega⟩
          · exact Or.inr ⟨by norm_num, by omega⟩
        exact (ih _ _ _ _ hinvN h).trans hstepperm
      · rw [he] at h
        by_cases hc : (vowelTest vowels (ol.getD v.toNat []) && decide (0 ≤ t)) =
            true
        · have hp2 : (attachP vowels catdir ol v t).2 = -1 := by
            rw [attachP_merge vowels catdir ol v t hc]
          rw [hp2] at h
          exact (ih _ _ _ _ (Or.inl rfl) h).trans hstepperm
        · have hp : attachP vowels catdir ol v t = (ol, t) :=
            attachP_nomerge vowels catdir ol v t hc
          rw [hp] at h hstepperm
          have hinvN : (t = -1 ∨ (0 ≤ t ∧ t < (ol.length : Int) ∧
              ((0 < searchstep ∧ t < v + searchstep) ∨
                (searchstep < 0 ∧ v + searchstep < t)))) := by
            rcases hinv with h1 | ⟨h1, h2, h3⟩
            · exact Or.inl h1
            · refine Or.inr ⟨h1, h2, ?_⟩
              rcases h3 with ⟨hs, hlt⟩ | ⟨hs, hlt⟩
              · exact Or.inl ⟨hs, by omega⟩
              · exact Or.inr ⟨hs, by omega⟩
          exact ih _ _ _ _ hinvN h
    · unfold attachBody at h
      rw [if_neg hg] at h
      rw [← Option.some.inj h]

/-- C10: `attach_tones_to_vowels` (for the scan steps `1` and `-1` the source
is called with) terminates, returns a new sequence without mutating its input
(the embedding is pure), and preserves symbol content: a merged tone is
removed from its own slot and concatenated onto exactly one vowel element, so
no characters are created or destroyed — the multiset of characters of the
joined output equals that of the joined input. -/
theorem attach_tones_preserves_characters (il : List Str) (tones vowels : List Str)
    (searchstep catdir : Int) (hstep : searchstep = 1 ∨ searchstep = -1) :
    ∃ ol, attach_tones_to_vowels il tones vowels searchstep catdir = some ol ∧
      List.Perm ol.flatten il.flatten := by
  unfold attach_tones_to_vowels
  rcases hstep with rfl | rfl
  · rw [if_pos (by norm_num : (0 : Int) < 1)]
    have hsome := attachLoop_isSome_forward tones vowels catdir (il.length + 1)
      il 0 (-1) (le_refl 0) (by push_cast; omega)
    obtain ⟨res, hres⟩ := Option.isSome_iff_exists.mp hsome
    exact ⟨res, hres,
      attachLoop_flatten_perm tones vowels 1 catdir (Or.inl rfl) (il.length + 1)
        il 0 (-1) res (Or.inl rfl) hres⟩
  · rw [if_neg (by norm_num : ¬((0 : Int) < -1))]
    have hsome := attachLoop_isSome_backward tones vowels catdir (il.length + 1)
      il ((il.length : Int) - 1) (-1) (by push_cast; omega)
    obtain ⟨res, hres⟩ := Option.isSome_iff_exists.mp hsome
    exact ⟨res, hres,
      attachLoop_flatten_perm tones vowels (-1) catdir (Or.inr rfl)
        (il.length + 1) il ((il.length : Int) - 1) (-1) res (Or.inl rfl) hres⟩

theorem attach_tones_preserves_characters_witness :
    ((1 : Int) = 1 ∨ (1 : Int) = -1) ∧
    (∃ ol, attach_tones_to_vowels [['1'], ['a']] [['1']] [['a']] 1 (-1) =
        some ol ∧
      List.Perm ol.flatten ([['1'], ['a']] : List Str).flatten) :=
  ⟨Or.inl rfl,
    attach_tones_preserves_characters [['1'], ['a']] [['1']] [['a']] 1 (-1)
      (Or.inl rfl)⟩

theorem attachT2_inv (tones : List Str) (p1 : List Str) (vn : Nat) (v : Int)
    (t2' : Int) (P : Int → Prop) (hv : P v) (ht : P t2') :
    P (attachT2 tones p1 vn v t2') := by
  rcases attachT2_cases tones p1 vn v t2' with ⟨he, -⟩ | he <;> rw [he]
  · exact hv
  · exact ht

theorem attachLoop_forward_suffix (tones vowels : List Str) (catdir : Int)
    (suffix : List Str) (hnv : ∀ x ∈ suffix, vowelTest vowels x = false) :
    ∀ (fuel : Nat) (Z : List Str) (v t : Int) (res : List Str),
      (t = -1 ∨ (0 ≤ t ∧ t < v)) →
      attachLoop tones vowels 1 catdir fuel (Z ++ suffix) v t = some res →
      ∃ Z2, res = Z2 ++ suffix := by
  intro fuel
  induction fuel with
  | zero =>
    intro Z v t res hinv h
    rw [attachLoop_zero] at h
    by_cases hg : 0 ≤ v ∧ v < ((Z ++ suffix).length : Int)
    · rw [if_pos hg] at h; cases h
    · rw [if_neg hg] at h
      exact ⟨Z, (Option.some.inj h).symm⟩
  | succ fuel ih =>
    intro Z v t res hinv h
    rw [attachLoop_succ] at h
    by_cases hg : 0 ≤ v ∧ v < ((Z ++ suffix).length : Int)
    · rw [attachBody_guard tones vowels 1 catdir _ (Z ++ suffix) v t hg] at h
      by_cases hc : (vowelTest vowels ((Z ++ suffix).getD v.toNat []) &&
          decide (0 ≤ t)) = true
      · have hc' := hc
        simp only [Bool.and_eq_true, decide_eq_true_eq] at hc'
        have hvfull : v.toNat < (Z ++ suffix).length := by
          have h1 := hg.1
          have h2 := hg.2
          omega
        have hvZ : v.toNat < Z.length := by
          by_contra hge
          push_neg at hge
          have he1 : (Z ++ suffix).getD v.toNat [] =
              suffix.getD (v.toNat - Z.length) [] := by
            rw [List.getD_eq_getElem?_getD, List.getElem?_append_right hge,
              ← List.getD_eq_getElem?_getD]
          have hmem : suffix.getD (v.toNat - Z.length) [] ∈ suffix := by
            apply getD_mem_of_lt
            rw [List.length_append] at hvfull
            omega
          have := hc'.1
          rw [he1, hnv _ hmem] at this
          cases this
        have htv : 0 ≤ t ∧ t < v := by
          rcases hinv with h1 | h1
          · have := hc'.2
            omega
          · exact h1
        have htZ : t.toNat < Z.length := by omega
        rw [attachP_merge vowels catdir (Z ++ suffix) v t hc] at h
        rw [List.set_append_left v.toNat _ hvZ] at h
        rw [List.take_append_of_le_length (by rw [List.length_set]; omega)] at h
        rw [List.drop_append_of_le_length (by rw [List.length_set]; omega)] at h
        rw [← List.append_assoc] at h
        dsimp only at h
        refine ih _ (v + 1) _ res
          (attachT2_inv tones _ v.toNat v (-1)
            (fun x => x = -1 ∨ (0 ≤ x ∧ x < v + 1))
            (Or.inr ⟨hg.1, by omega⟩) (Or.inl rfl)) h
      · rw [attachP_nomerge vowels catdir (Z ++ suffix) v t hc] at h
        dsimp only at h
        refine ih Z (v + 1) _ res
          (attachT2_inv tones _ v.toNat v t
            (fun x => x = -1 ∨ (0 ≤ x ∧ x < v + 1))
            (Or.inr ⟨hg.1, by omega⟩) ?_) h
        rcases hinv with h1 | ⟨h1, h2⟩
        · exact Or.inl h1
        · exact Or.inr ⟨h1, by omega⟩
    · unfold attachBody at h
      rw [if_neg hg] at h
      exact ⟨Z, (Option.some.inj h).symm⟩

theorem attachT2_inv_bwd (tones : List Str) (p1 : List Str) (vn : Nat)
    (v t2' : Int) (hvpos : 0 ≤ v)
    (ht : t2' = -1 ∨ (v + -1 < t2' ∧ t2' < (p1.length : Int) ∧ 0 ≤ t2')) :
    attachT2 tones p1 vn v t2' = -1 ∨
      (v + -1 < attachT2 tones p1 vn v t2' ∧
        attachT2 tones p1 vn v t2' < (p1.length : Int) ∧
        0 ≤ attachT2 tones p1 vn v t2') := by
  rcases attachT2_cases tones p1 vn v t2' with ⟨he, hlt⟩ | he <;> rw [he]
  · exact Or.inr ⟨by omega, hlt, hvpos⟩
  · exact ht

theorem attachLoop_backward_prefix (tones vowels : List Str) (catdir : Int)
    (P : List Str) (hnv : ∀ x ∈ P, vowelTest vowels x = false) :
    ∀ (fuel : Nat) (W : List Str) (v t : Int) (res : List Str),
      (t = -1 ∨ (v < t ∧ t < ((P ++ W).length : Int) ∧ 0 ≤ t)) →
      attachLoop tones vowels (-1) catdir fuel (P ++ W) v t = some res →
      ∃ W2, res = P ++ W2 := by
  intro fuel
  induction fuel with
  | zero =>
    intro W v t res hinv h
    rw [attachLoop_zero] at h
    by_cases hg : 0 ≤ v ∧ v < ((P ++ W).length : Int)
    · rw [if_pos hg] at h; cases h
    · rw [if_neg hg] at h
      exact ⟨W, (Option.some.inj h).symm⟩
  | succ fuel ih =>
    intro W v t res hinv h
    rw [attachLoop_succ] at h
    by_cases hg : 0 ≤ v ∧ v < ((P ++ W).length : Int)
    · rw [attachBody_guard tones vowels (-1) catdir _ (P ++ W) v t hg] at h
      by_cases hc : (vowelTest vowels ((P ++ W).getD v.toNat []) &&
          decide (0 ≤ t)) = true
      · have hc' := hc
        simp only [Bool.and_eq_true, decide_eq_true_eq] at hc'
        have hvfull : v.toNat < (P ++ W).length := by
          have h1 := hg.1
          have h2 := hg.2
          omega
        have hPv : P.length ≤ v.toNat := by
          by_contra hlt
          push_neg at hlt
          have he1 : (P ++ W).getD v.toNat [] = P.getD v.toNat [] :=
            getD_append_left' P W v.toNat [] hlt
          have hmem : P.getD v.toNat [] ∈ P := getD_mem_of_lt P v.toNat [] hlt
          have := hc'.1
          rw [he1, hnv _ hmem] at this
          cases this
        have htv : v < t ∧ t < ((P ++ W).length : Int) ∧ 0 ≤ t := by
          rcases hinv with h1 | h1
          · have := hc'.2
            omega
          · exact h1
        have hPt : P.length ≤ t.toNat := by
          have h1 := hg.1
          have h2 := htv.1
          have h3 := htv.2.2
          omega
        rw [attachP_merge vowels catdir (P ++ W) v t hc] at h
        rw [List.set_append_right v.toNat _ hPv] at h
        rw [List.take_append_eq_append_take, List.take_of_length_le hPt] at h
        rw [List.drop_append_eq_append_drop,
          List.drop_eq_nil_of_le (by omega : P.length ≤ t.toNat + 1),
          List.nil_append] at h
        rw [List.append_assoc] at h
        dsimp only at h
        exact ih _ (v + -1) _ res
          (attachT2_inv_bwd tones _ v.toNat v (-1) hg.1 (Or.inl rfl)) h
      · rw [attachP_nomerge vowels catdir (P ++ W) v t hc] at h
        dsimp only at h
        refine ih W (v + -1) _ res
          (attachT2_inv_bwd tones _ v.toNat v t hg.1 ?_) h
        rcases hinv with h1 | ⟨h1, h2, h3⟩
        · exact Or.inl h1
        · exact Or.inr ⟨by omega, h2, h3⟩
    · unfold attachBody at h
      rw [if_neg hg] at h
      exact ⟨W, (Option.some.inj h).symm⟩

/-- C7: In attach_tones_to_vowels, a tone symbol for which no vowel is found in
the scan direction before the sequence ends is left unattached: the call
succeeds (no error) and the tone remains as its own element in its original
relative position. For the forward scan (searchstep = 1) a vowel for the tone
would lie at or after it, so if no element from the tone onward is a vowel, the
tone and everything after it are returned verbatim; for the backward scan
(searchstep = -1) a vowel would lie at or before it, so if no element up to and
including the tone is a vowel, everything up to and including the tone is
returned verbatim. -/
theorem attach_tones_unattached_tone_preserved (tones vowels : List Str)
    (catdir : Int) (xs ys : List Str) (tone : Str) (_htone : tone ∈ tones) :
    ((∀ x ∈ tone :: ys, vowelTest vowels x = false) →
      ∃ xs2, attach_tones_to_vowels (xs ++ tone :: ys) tones vowels 1 catdir =
        some (xs2 ++ tone :: ys)) ∧
    ((∀ x ∈ xs ++ [tone], vowelTest vowels x = false) →
      ∃ ys2, attach_tones_to_vowels (xs ++ tone :: ys) tones vowels (-1) catdir =
        some (xs ++ tone :: ys2)) := by
  constructor
  · intro hys
    have hrun := attachLoop_isSome_forward tones vowels catdir
      ((xs ++ tone :: ys).length + 1) (xs ++ tone :: ys) 0 (-1)
      (by omega) (by omega)
    rw [Option.isSome_iff_exists] at hrun
    obtain ⟨res, hres⟩ := hrun
    obtain ⟨Z2, hZ2⟩ := attachLoop_forward_suffix tones vowels catdir
      (tone :: ys) hys ((xs ++ tone :: ys).length + 1) xs 0 (-1) res
      (Or.inl rfl) hres
    refine ⟨Z2, ?_⟩
    simp only [attach_tones_to_vowels]
    rw [if_pos (by decide : (0 : Int) < 1)]
    rw [hres, hZ2]
  · intro hxs
    have hsplit : xs ++ tone :: ys = (xs ++ [tone]) ++ ys := by simp
    rw [hsplit]
    have hrun := attachLoop_isSome_backward tones vowels catdir
      (((xs ++ [tone]) ++ ys).length + 1) ((xs ++ [tone]) ++ ys)
      ((((xs ++ [tone]) ++ ys).length : Int) - 1) (-1) (by omega)
    rw [Option.isSome_iff_exists] at hrun
    obtain ⟨res, hres⟩ := hrun
    obtain ⟨W2, hW2⟩ := attachLoop_backward_prefix tones vowels catdir
      (xs ++ [tone]) hxs (((xs ++ [tone]) ++ ys).length + 1) ys
      ((((xs ++ [tone]) ++ ys).length : Int) - 1) (-1) res (Or.inl rfl) hres
    refine ⟨W2, ?_⟩
    simp only [attach_tones_to_vowels]
    rw [if_neg (by decide : ¬ ((0 : Int) < -1))]
    rw [hres, hW2]
    simp

theorem attach_tones_unattached_tone_preserved_witness :
    ['1'] ∈ [['1']] ∧
    (∃ xs2,
      attach_tones_to_vowels [['b'], ['1'], ['c']] [['1']] [['a']] 1 1 =
        some (xs2 ++ ['1'] :: [['c']])) ∧
    (∃ ys2,
      attach_tones_to_vowels [['b'], ['1'], ['c']] [['1']] [['a']] (-1) 1 =
        some ([['b']] ++ ['1'] :: ys2)) := by
  have h := attach_tones_unattached_tone_preserved [['1']] [['a']] 1
    [['b']] [['c']] ['1'] (by decide)
  exact ⟨by decide, h.1 (by decide), h.2 (by decide)⟩

end Phonecodes
